import Mathlib

/-!
Verification of the minweb literate-programming core against its
natural-language specification.

The definitions below are a shallow embedding of the C++ sources:

* token decoders  — `src/lexer/lexer_macro_type_from_macro_begin.cpp`,
  `decode_macro_ref.cpp`, `decode_special_directive.cpp`,
  `lexer_substitution_type_from_text_substitution.cpp`
* character lexer — `src/lexer/lexer_read.cpp`, `lexer_read_char.cpp`,
  `lexer_accept.cpp`, `lexer_start.cpp`, `lexer_put_back.cpp`,
  `lexer_read_linecol.cpp`
* processor       — `src/processor/processor_run.cpp`,
  `processor_include_stream.cpp`
* dependency graph — `src/util/graph_add_node.cpp`, `graph_add_edge.cpp`,
  `graph_topological_sort.cpp`
* macro expansion engine — the tangle callbacks of `src/mintangle/main.cpp`
* include resolution — `src/util/utilities_include_processor_callback.cpp`

Strings are modelled as `List Char`; C++ `std::string::substr(pos, len)`
becomes `(s.drop pos).take len`; machine `int` line/column counters are
modelled as `Int` (they stay tiny in all statements proved here).
-/

set_option autoImplicit false

namespace Minweb

/-- C++ enum `macro_type` (MINWEB_MACRO_TYPE_DEFAULT / FILE / SECTION / ROOT). -/
inductive MacroTy where
  | mtDefault
  | mtFile
  | mtSection
  | mtRoot
deriving DecidableEq, Repr

/-- C++ enum `substitution_type` (DEFAULT / ASSIGNMENT). -/
inductive SubstTy where
  | stDefault
  | stAssignment
deriving DecidableEq, Repr

/-- C++ enum `directive_type` (INCLUDE / LANGUAGE). -/
inductive DirTy where
  | dtInclude
  | dtLanguage
deriving DecidableEq, Repr

/-- The `lexer_error` exceptions thrown by the four token decoders.  Each
constructor stands for one `failout` message of the C++ sources; the
carried text is the offending token string spliced into that message. -/
inductive LexerErr where
  | malformedMacroStatement (text : List Char)
  | malformedMacroReference (text : List Char)
  | malformedTextSubstitution (text : List Char)
  | malformedSpecialDirective (text : List Char)
  | unsupportedDirectiveType (text : List Char)
deriving DecidableEq, Repr

/-- C++ `std::string::substr(pos, len)` on the `List Char` model. -/
def substr (s : List Char) (pos len : Nat) : List Char :=
  (s.drop pos).take len

/-- C++ `std::string::find(c)`: index of the first occurrence, `none` for
`std::string::npos`. -/
def strFind (c : Char) : List Char → Option Nat
  | [] => none
  | x :: rest => if x = c then some 0 else (strFind c rest).map (· + 1)

/-- `lexer::macro_type_from_macro_begin`
(`src/lexer/lexer_macro_type_from_macro_begin.cpp`): decode a macro-begin
token string `<<inner>>=` into a macro type and name. -/
def macro_type_from_macro_begin (s : List Char) :
    Except LexerErr (MacroTy × List Char) :=
  if s.length < 5 then
    .error (.malformedMacroStatement s)
  else if ¬ (s[0]? = some '<' ∧ s[1]? = some '<'
      ∧ s[s.length - 3]? = some '>' ∧ s[s.length - 2]? = some '>'
      ∧ s[s.length - 1]? = some '=') then
    .error (.malformedMacroStatement s)
  else
    let inner := substr s 2 (s.length - 5)
    if inner = ['*'] then
      .ok (.mtRoot, inner)
    else
      match strFind ':' inner with
      | none => .ok (.mtDefault, inner)
      | some pos =>
        let typestr := substr inner 0 pos
        let name := inner.drop (pos + 1)
        if typestr = [ 'F', 'I', 'L', 'E'] then
          .ok (.mtFile, name)
        else if typestr = [ 'S', 'E', 'C', 'T', 'I', 'O', 'N'] then
          .ok (.mtSection, name)
        else
          .ok (.mtDefault, inner)

/-- `lexer::decode_macro_ref` (`src/lexer/decode_macro_ref.cpp`): decode a
macro-reference token string `<<inner>>` into the inner name. -/
def decode_macro_ref (s : List Char) : Except LexerErr (List Char) :=
  if s.length < 4 then
    .error (.malformedMacroReference s)
  else if ¬ (s[0]? = some '<' ∧ s[1]? = some '<'
      ∧ s[s.length - 2]? = some '>' ∧ s[s.length - 1]? = some '>') then
    .error (.malformedMacroReference s)
  else
    .ok (substr s 2 (s.length - 4))

/-- `lexer::substitution_type_from_text_substitution`
(`src/lexer/lexer_substitution_type_from_text_substitution.cpp`). -/
def substitution_type_from_text_substitution (s : List Char) :
    Except LexerErr (SubstTy × List Char × List Char) :=
  if s.length < 4 then
    .error (.malformedTextSubstitution s)
  else if ¬ (s[0]? = some '%' ∧ s[1]? = some '['
      ∧ s[s.length - 2]? = some ']' ∧ s[s.length - 1]? = some '%') then
    .error (.malformedTextSubstitution s)
  else
    let inner := substr s 2 (s.length - 4)
    match strFind '=' inner with
    | none => .ok (.stDefault, inner, [])
    | some pos => .ok (.stAssignment, substr inner 0 pos, inner.drop (pos + 1))

/-- `lexer::decode_special_directive`
(`src/lexer/decode_special_directive.cpp`): decode `#[directive=value]`. -/
def decode_special_directive (s : List Char) :
    Except LexerErr (DirTy × List Char) :=
  if s.length < 4 then
    .error (.malformedSpecialDirective s)
  else
    match strFind '=' s with
    | none => .error (.malformedSpecialDirective s)
    | some eqloc =>
      if ¬ (s[0]? = some '#' ∧ s[1]? = some '['
          ∧ s[s.length - 1]? = some ']') then
        .error (.malformedSpecialDirective s)
      else
        let directive := substr s 2 (eqloc - 2)
        let value := substr s (eqloc + 1) (s.length - eqloc - 2)
        if directive = [ 'i', 'n', 'c', 'l', 'u', 'd', 'e'] then
          .ok (.dtInclude, value)
        else if directive = [ 'l', 'a', 'n', 'g', 'u', 'a', 'g', 'e'] then
          .ok (.dtLanguage, value)
        else
          .error (.unsupportedDirectiveType s)

theorem strFind_eq_none (c : Char) (s : List Char) (h : c ∉ s) : strFind c s = none := by
  induction s with
  | nil => rfl
  | cons x rest ih =>
    simp only [List.mem_cons, not_or] at h
    have hxc : ¬ (x = c) := fun hh => h.1 hh.symm
    simp [strFind, hxc, ih h.2]

theorem strFind_append_cons (c : Char) (pre post : List Char) (h : c ∉ pre) :
    strFind c (pre ++ c :: post) = some pre.length := by
  induction pre with
  | nil => simp [strFind]
  | cons x rest ih =>
    simp only [List.mem_cons, not_or] at h
    have hxc : ¬ (x = c) := fun hh => h.1 hh.symm
    simp [strFind, hxc, ih h.2]

theorem mtb_shell (inner : List Char) :
    macro_type_from_macro_begin ('<' :: '<' :: (inner ++ [ '>', '>', '='])) =
      (if inner = ['*'] then .ok (.mtRoot, inner)
       else
         match strFind ':' inner with
         | none => .ok (.mtDefault, inner)
         | some pos =>
           if substr inner 0 pos = [ 'F', 'I', 'L', 'E'] then
             .ok (.mtFile, inner.drop (pos + 1))
           else if substr inner 0 pos = [ 'S', 'E', 'C', 'T', 'I', 'O', 'N'] then
             .ok (.mtSection, inner.drop (pos + 1))
           else .ok (.mtDefault, inner)) := by
  have hlen : ('<' :: '<' :: (inner ++ [ '>', '>', '='])).length = inner.length + 5 := by
    simp
  have h0 : ('<' :: '<' :: (inner ++ [ '>', '>', '=']))[0]? = some '<' := by simp
  have h1 : ('<' :: '<' :: (inner ++ [ '>', '>', '=']))[1]? = some '<' := by simp
  have h3 : ('<' :: '<' :: (inner ++ [ '>', '>', '=']))[inner.length + 5 - 3]? = some '>' := by
    have e : inner.length + 5 - 3 = (inner.length) + 1 + 1 := by omega
    rw [e, List.getElem?_cons_succ, List.getElem?_cons_succ,
        List.getElem?_append_right (Nat.le_refl _)]
    simp
  have h2 : ('<' :: '<' :: (inner ++ [ '>', '>', '=']))[inner.length + 5 - 2]? = some '>' := by
    have e : inner.length + 5 - 2 = (inner.length + 1) + 1 + 1 := by omega
    rw [e, List.getElem?_cons_succ, List.getElem?_cons_succ,
        List.getElem?_append_right (Nat.le_succ _)]
    rw [show inner.length + 1 - inner.length = 1 from by omega]
    rfl
  have h4 : ('<' :: '<' :: (inner ++ [ '>', '>', '=']))[inner.length + 5 - 1]? = some '=' := by
    have e : inner.length + 5 - 1 = (inner.length + 2) + 1 + 1 := by omega
    rw [e, List.getElem?_cons_succ, List.getElem?_cons_succ,
        List.getElem?_append_right (by omega : inner.length ≤ inner.length + 2)]
    rw [show inner.length + 2 - inner.length = 2 from by omega]
    rfl
  have hsub : substr ('<' :: '<' :: (inner ++ [ '>', '>', '='])) 2 (inner.length + 5 - 5) = inner := by
    have : inner.length + 5 - 5 = inner.length := by omega
    rw [this]
    show (inner ++ [ '>', '>', '=']).take inner.length = inner
    exact List.take_left inner _
  unfold macro_type_from_macro_begin
  rw [hlen, hsub]
  simp only [h0, h1, h3, h2, h4, and_self, not_true_eq_false, if_false, if_neg (by omega : ¬ inner.length + 5 < 5)]

/-- Claim C7: for every well-formed macro-begin text `<<inner>>=`, the decoder
returns Root for inner `*`, Default(inner) when inner has no colon, File /
Section of the suffix for the `FILE` / `SECTION` prefixes, and Default of the
whole inner string for any other prefix; any text shorter than 5 characters or
missing the `<<` / `>>=` delimiters yields a decode error. -/
theorem C7_macro_begin_decoder :
    (∀ inner : List Char,
      (inner = ['*'] →
        macro_type_from_macro_begin ('<' :: '<' :: (inner ++ [ '>', '>', '='])) =
          .ok (.mtRoot, ['*']))
      ∧ (':' ∉ inner → inner ≠ ['*'] →
        macro_type_from_macro_begin ('<' :: '<' :: (inner ++ [ '>', '>', '='])) =
          .ok (.mtDefault, inner))
      ∧ (∀ pre post : List Char, inner = pre ++ ':' :: post → ':' ∉ pre → inner ≠ ['*'] →
          macro_type_from_macro_begin ('<' :: '<' :: (inner ++ [ '>', '>', '='])) =
            (if pre = [ 'F', 'I', 'L', 'E'] then .ok (.mtFile, post)
             else if pre = [ 'S', 'E', 'C', 'T', 'I', 'O', 'N'] then .ok (.mtSection, post)
             else .ok (.mtDefault, inner))))
    ∧ (∀ s : List Char,
        (s.length < 5 ∨ ¬ (s[0]? = some '<' ∧ s[1]? = some '<'
            ∧ s[s.length - 3]? = some '>' ∧ s[s.length - 2]? = some '>'
            ∧ s[s.length - 1]? = some '=')) →
        macro_type_from_macro_begin s = .error (.malformedMacroStatement s)) := by
  constructor
  · intro inner
    refine ⟨?_, ?_, ?_⟩
    · intro h
      rw [mtb_shell, if_pos h, h]
    · intro hc hstar
      rw [mtb_shell, if_neg hstar, strFind_eq_none _ _ hc]
    · intro pre post hin hc hstar
      rw [mtb_shell, if_neg hstar, hin, strFind_append_cons _ _ _ hc]
      have htype : substr (pre ++ ':' :: post) 0 pre.length = pre := by
        show ((pre ++ ':' :: post).drop 0).take pre.length = pre
        rw [List.drop_zero]
        exact List.take_left pre _
      have hname : (pre ++ ':' :: post).drop (pre.length + 1) = post := by
        have hsplit : pre ++ ':' :: post = (pre ++ [ ':']) ++ post := by simp
        have hlen : (pre ++ [ ':']).length = pre.length + 1 := by simp
        rw [hsplit, ← hlen]
        exact List.drop_left _ _
      simp only [htype, hname]
  · intro s h
    unfold macro_type_from_macro_begin
    rcases h with h | h
    · rw [if_pos h]
    · by_cases hl : s.length < 5
      · rw [if_pos hl]
      · rw [if_neg hl, if_pos h]

/-- Witness for C7: decodes `<<FILE:main.c>>=` as a File macro named
`main.c`, and the malformed input `<<x>>` as a decode error. -/
theorem C7_macro_begin_decoder_witness :
    macro_type_from_macro_begin
        ('<' :: '<' :: (([ 'F', 'I', 'L', 'E'] ++ ':' :: [ 'm', 'a', 'i', 'n', '.', 'c'])
          ++ [ '>', '>', '='])) = .ok (.mtFile, [ 'm', 'a', 'i', 'n', '.', 'c'])
    ∧ macro_type_from_macro_begin [ '<', '<', 'x', '>', '>'] =
        .error (.malformedMacroStatement [ '<', '<', 'x', '>', '>']) := by
  constructor
  · have h := (C7_macro_begin_decoder.1
        ([ 'F', 'I', 'L', 'E'] ++ ':' :: [ 'm', 'a', 'i', 'n', '.', 'c'])).2.2
        [ 'F', 'I', 'L', 'E'] [ 'm', 'a', 'i', 'n', '.', 'c'] rfl (by decide) (by decide)
    simpa using h
  · exact C7_macro_begin_decoder.2 [ '<', '<', 'x', '>', '>'] (by decide)

/-! ## Dependency graph

Shallow embedding of `minweb::graph` (`src/include/minweb/graph.h`,
`src/util/graph_add_node.cpp`, `src/util/graph_add_edge.cpp`,
`src/util/graph_topological_sort.cpp`).  The C++ state is
`std::map<int, std::shared_ptr<std::set<int>>> nodes`; we model the map as an
association list kept strictly ascending by key and each `std::set<int>` as an
ascending duplicate-free list, matching the iteration order of the originals.
-/

/-- A `std::set<int>` value. -/
abbrev DepSet := List Int

/-- The `std::map<int, std::shared_ptr<std::set<int>>>` of `minweb::graph`. -/
abbrev GraphNodes := List (Int × DepSet)

/-- `std::set<int>::insert`: ordered insert, no effect when present. -/
def setInsert (x : Int) : DepSet → DepSet
  | [] => [x]
  | y :: rest =>
    if x < y then x :: y :: rest
    else if x = y then y :: rest
    else y :: setInsert x rest

/-- `std::map::find`: the first (unique) entry with the given key. -/
def mapFind (k : Int) : GraphNodes → Option DepSet
  | [] => none
  | (a, s) :: rest => if k = a then some s else mapFind k rest

/-- `std::map::insert`: ordered insert that keeps the existing entry when the
key is already present (exactly the `nodes.insert` of `graph::add_node`). -/
def mapInsert (k : Int) (v : DepSet) : GraphNodes → GraphNodes
  | [] => [(k, v)]
  | (a, s) :: rest =>
    if k < a then (k, v) :: (a, s) :: rest
    else if k = a then (a, s) :: rest
    else (a, s) :: mapInsert k v rest

/-- Apply `f` to the dependency set stored under key `k` (the
`f->second->insert(toNode)` step of `graph::add_edge`). -/
def mapUpdate (k : Int) (f : DepSet → DepSet) : GraphNodes → GraphNodes
  | [] => []
  | (a, s) :: rest =>
    if k = a then (a, f s) :: rest else (a, s) :: mapUpdate k f rest

/-- The `minweb::graph` object. -/
structure Graph where
  nodes : GraphNodes
deriving DecidableEq, Repr

/-- `graph::add_node` (`src/util/graph_add_node.cpp`): insert the node with an
empty dependency set; a no-op when it already exists. -/
def add_node (g : Graph) (node : Int) : Graph :=
  ⟨mapInsert node [] g.nodes⟩

/-- `graph::add_edge` (`src/util/graph_add_edge.cpp`): ensure `node` exists,
insert `toNode` into its dependency set, then ensure `toNode` exists. -/
def add_edge (g : Graph) (node toNode : Int) : Graph :=
  let g1 := if (mapFind node g.nodes).isSome then g else add_node g node
  let g2 : Graph := ⟨mapUpdate node (setInsert toNode) g1.nodes⟩
  if (mapFind toNode g2.nodes).isSome then g2 else add_node g2 toNode

/-- One scan of the `for (auto i : sort_nodes)` loop of
`graph::topological_sort`: the first node (in map iteration order) whose
dependency set is empty. -/
def findEmptyDeps : GraphNodes → Option Int
  | [] => none
  | (a, s) :: rest => if s = [] then some a else findEmptyDeps rest

/-- The body of the found-a-node branch of `graph::topological_sort`: erase
the found node from every remaining dependency set and drop its map entry. -/
def removeNode (k : Int) (m : GraphNodes) : GraphNodes :=
  (m.map (fun p => (p.1, p.2.filter (fun x => x ≠ k)))).filter (fun p => p.1 ≠ k)

theorem removeNode_length_lt {k : Int} {m : GraphNodes} (s : DepSet)
    (h : (k, s) ∈ m) : (removeNode k m).length < m.length := by
  have hmem : (k, s.filter (fun x => x ≠ k)) ∈
      m.map (fun p => (p.1, p.2.filter (fun x => x ≠ k))) :=
    List.mem_map_of_mem _ h
  have hlen : (removeNode k m).length <
      (m.map (fun p => (p.1, p.2.filter (fun x => x ≠ k)))).length := by
    refine List.length_filter_lt_length_iff_exists.mpr ?_
    exact ⟨(k, s.filter (fun x => x ≠ k)), hmem, by simp⟩
  simpa using hlen

theorem findEmptyDeps_mem {m : GraphNodes} {k : Int}
    (h : findEmptyDeps m = some k) : (k, []) ∈ m := by
  induction m with
  | nil => simp [findEmptyDeps] at h
  | cons p rest ih =>
    obtain ⟨a, s⟩ := p
    by_cases hs : s = []
    · simp [findEmptyDeps, hs] at h
      simp [hs, h]
    · simp [findEmptyDeps, hs] at h
      exact List.mem_cons_of_mem _ (ih h)

/-- The `while (sort_nodes.size() > 0)` loop of `graph::topological_sort`,
acting on the working copy; returns the emitted order or a `cycle_error`. -/
def sortNodesLoop (m : GraphNodes) : Except Unit (List Int) :=
  if m = [] then .ok []
  else
    match hf : findEmptyDeps m with
    | none => .error ()
    | some k =>
      match sortNodesLoop (removeNode k m) with
      | .error e => .error e
      | .ok rest => .ok (k :: rest)
termination_by m.length
decreasing_by exact removeNode_length_lt [] (findEmptyDeps_mem hf)

/-- The `sort_nodes` deep copy built at the top of `graph::topological_sort`:
each `std::set` is copied by value (`make_shared<set<int>>(*i.second)`), so in
the pure model the copy is the same map value. -/
def copySortNodes (m : GraphNodes) : GraphNodes :=
  m.map (fun p => (p.1, p.2))

/-- `graph::topological_sort` (`src/util/graph_topological_sort.cpp`).  The
method is `const`: it reads `nodes` into the local copy and mutates only the
copy, so the post-call object state — the second component — is the receiver
unchanged. -/
def topological_sort (g : Graph) : Except Unit (List Int) × Graph :=
  (sortNodesLoop (copySortNodes g.nodes), g)

/-- The key list of the node map, in iteration order. -/
def keys (m : GraphNodes) : List Int :=
  m.map Prod.fst

/-- The dependency set recorded for `k` (empty when `k` has no entry). -/
def depsOf (m : GraphNodes) (k : Int) : DepSet :=
  (mapFind k m).getD []

/-- `a` depends on `b`: the graph records edge `a → b`. -/
def DepEdge (m : GraphNodes) (a b : Int) : Prop :=
  b ∈ depsOf m a

/-- A walk along dependency edges visiting the given list of nodes in order. -/
def IsWalk (m : GraphNodes) : Int → List Int → Prop
  | _, [] => True
  | a, b :: rest => DepEdge m a b ∧ IsWalk m b rest

/-- A dependency cycle: a walk of at least one edge from some node back to
itself. -/
def HasCycle (m : GraphNodes) : Prop :=
  ∃ a l, IsWalk m a (l ++ [a])

/-- Every recorded dependency target has its own map entry. -/
def DepsClosed (m : GraphNodes) : Prop :=
  ∀ p ∈ m, ∀ d ∈ p.2, d ∈ keys m

/-- The sort-facing invariant of the node map. -/
def GraphWF (m : GraphNodes) : Prop :=
  (keys m).Nodup ∧ DepsClosed m

theorem mapFind_eq_none_iff (k : Int) (m : GraphNodes) :
    mapFind k m = none ↔ k ∉ keys m := by
  induction m with
  | nil => simp [mapFind, keys]
  | cons p rest ih =>
    obtain ⟨a, s⟩ := p
    by_cases hk : k = a
    · simp [mapFind, hk, keys]
    · simp [mapFind, hk, keys, ih]

theorem mapFind_some_mem {k : Int} {m : GraphNodes} {s : DepSet}
    (h : mapFind k m = some s) : (k, s) ∈ m := by
  induction m with
  | nil => simp [mapFind] at h
  | cons p rest ih =>
    obtain ⟨a, t⟩ := p
    by_cases hk : k = a
    · simp [mapFind, hk] at h
      simp [hk, h]
    · simp [mapFind, hk] at h
      exact List.mem_cons_of_mem _ (ih h)

theorem mem_mapFind {k : Int} {m : GraphNodes} {s : DepSet}
    (hnd : (keys m).Nodup) (h : (k, s) ∈ m) : mapFind k m = some s := by
  induction m with
  | nil => simp at h
  | cons p rest ih =>
    obtain ⟨a, t⟩ := p
    simp only [keys, List.map_cons, List.nodup_cons] at hnd
    rcases List.mem_cons.mp h with heq | hmem
    · injection heq with h1 h2
      subst h1
      subst h2
      simp [mapFind]
    · have hka : k ≠ a := by
        intro hk
        exact hnd.1 (hk ▸ (List.mem_map_of_mem Prod.fst hmem))
      simp [mapFind, hka, ih hnd.2 hmem]

theorem mapFind_isSome_iff (k : Int) (m : GraphNodes) :
    (mapFind k m).isSome ↔ k ∈ keys m := by
  rcases h : mapFind k m with _ | s
  · simp [(mapFind_eq_none_iff k m).mp h]
  · simp only [Option.isSome_some, true_iff]
    exact List.mem_map_of_mem Prod.fst (mapFind_some_mem h)

theorem keys_removeNode (k : Int) (m : GraphNodes) :
    keys (removeNode k m) = (keys m).filter (fun x => x ≠ k) := by
  induction m with
  | nil => rfl
  | cons p rest ih =>
    obtain ⟨a, s⟩ := p
    by_cases ha : a = k
    · simp [removeNode, keys, ha] at ih ⊢
      exact ih
    · simp [removeNode, keys, ha] at ih ⊢
      exact ih

theorem removeNode_cons (k a : Int) (s : DepSet) (rest : GraphNodes) :
    removeNode k ((a, s) :: rest) =
      if a = k then removeNode k rest
      else (a, s.filter (fun x => x ≠ k)) :: removeNode k rest := by
  by_cases ha : a = k <;> simp [removeNode, ha]

theorem mapFind_removeNode {j k : Int} (m : GraphNodes) (hjk : j ≠ k) :
    mapFind j (removeNode k m) =
      (mapFind j m).map (fun s => s.filter (fun x => x ≠ k)) := by
  induction m with
  | nil => rfl
  | cons p rest ih =>
    obtain ⟨a, s⟩ := p
    rw [removeNode_cons]
    by_cases hak : a = k
    · rw [if_pos hak]
      have hja : ¬ (j = a) := fun h => hjk (h.trans hak)
      simp [mapFind, hja, ih]
    · rw [if_neg hak]
      by_cases hja : j = a
      · simp [mapFind, hja]
      · simp [mapFind, hja, ih]

theorem mapFind_removeNode_self (k : Int) (m : GraphNodes) :
    mapFind k (removeNode k m) = none := by
  rw [mapFind_eq_none_iff, keys_removeNode]
  simp

theorem depsOf_removeNode {j k : Int} (m : GraphNodes) (hjk : j ≠ k) :
    depsOf (removeNode k m) j = (depsOf m j).filter (fun x => x ≠ k) := by
  unfold depsOf
  rw [mapFind_removeNode m hjk]
  rcases mapFind j m with _ | s <;> rfl

theorem depsOf_removeNode_self (k : Int) (m : GraphNodes) :
    depsOf (removeNode k m) k = [] := by
  unfold depsOf
  rw [mapFind_removeNode_self]
  rfl

theorem depEdge_removeNode_iff {k a b : Int} (m : GraphNodes) :
    DepEdge (removeNode k m) a b ↔ DepEdge m a b ∧ a ≠ k ∧ b ≠ k := by
  unfold DepEdge
  by_cases hak : a = k
  · subst hak
    simp [depsOf_removeNode_self]
  · rw [depsOf_removeNode m hak]
    simp [hak, List.mem_filter]

theorem depEdge_source_mem {m : GraphNodes} {a b : Int} (h : DepEdge m a b) :
    a ∈ keys m := by
  by_contra hmem
  have := (mapFind_eq_none_iff a m).mpr hmem
  unfold DepEdge depsOf at h
  rw [this] at h
  simp at h

theorem depEdge_target_mem {m : GraphNodes} {a b : Int}
    (hc : DepsClosed m) (h : DepEdge m a b) : b ∈ keys m := by
  unfold DepEdge depsOf at h
  rcases hf : mapFind a m with _ | s
  · rw [hf] at h
    simp at h
  · rw [hf] at h
    exact hc (a, s) (mapFind_some_mem hf) b h

theorem findEmptyDeps_none {m : GraphNodes} (h : findEmptyDeps m = none) :
    ∀ p ∈ m, p.2 ≠ [] := by
  induction m with
  | nil => simp
  | cons p rest ih =>
    obtain ⟨a, s⟩ := p
    by_cases hs : s = []
    · simp [findEmptyDeps, hs] at h
    · simp [findEmptyDeps, hs] at h
      intro q hq
      rcases List.mem_cons.mp hq with heq | hmem
      · simpa [heq] using hs
      · exact ih h q hmem

theorem graphWF_removeNode {k : Int} {m : GraphNodes} (h : GraphWF m) :
    GraphWF (removeNode k m) := by
  obtain ⟨hnd, hc⟩ := h
  constructor
  · rw [keys_removeNode]
    exact hnd.filter _
  · intro p hp d hd
    simp only [removeNode, List.mem_filter, List.mem_map] at hp
    obtain ⟨⟨q, hq, hqe⟩, hpk⟩ := hp
    subst hqe
    simp only [List.mem_filter] at hd
    rw [keys_removeNode]
    simp only [List.mem_filter]
    exact ⟨hc q hq d hd.1, hd.2⟩

theorem sortNodesLoop_nil : sortNodesLoop ([] : GraphNodes) = .ok [] := by
  rw [sortNodesLoop.eq_def]
  simp

theorem sortNodesLoop_none {m : GraphNodes} (hm : m ≠ [])
    (h : findEmptyDeps m = none) : sortNodesLoop m = .error () := by
  rw [sortNodesLoop.eq_def, if_neg hm]
  split
  · rfl
  · rename_i k hk
    rw [h] at hk
    exact Option.noConfusion hk

theorem sortNodesLoop_some {m : GraphNodes} {k : Int} (hm : m ≠ [])
    (h : findEmptyDeps m = some k) :
    sortNodesLoop m =
      (match sortNodesLoop (removeNode k m) with
       | .error e => .error e
       | .ok rest => .ok (k :: rest)) := by
  rw [sortNodesLoop.eq_def, if_neg hm]
  split
  · rename_i hk
    rw [h] at hk
    exact Option.noConfusion hk
  · rename_i k2 hk
    rw [h] at hk
    injection hk with hkk
    subst hkk
    rfl

theorem sortLoop_ok_spec :
    ∀ m : GraphNodes, GraphWF m → ∀ out, sortNodesLoop m = .ok out →
      (∀ j, j ∈ keys m ↔ j ∈ out) ∧ out.Nodup ∧
      (∀ a b, DepEdge m a b →
        ∃ i j : Nat, i < j ∧ out[i]? = some b ∧ out[j]? = some a) := by
  intro m
  induction m using sortNodesLoop.induct with
  | case1 =>
    intro _ out hout
    rw [sortNodesLoop_nil] at hout
    injection hout with hout
    subst hout
    refine ⟨by simp [keys], List.nodup_nil, ?_⟩
    intro a b hab
    exact absurd hab (by simp [DepEdge, depsOf, mapFind])
  | case2 x hx hfind =>
    intro _ out hout
    rw [sortNodesLoop_none hx hfind] at hout
    exact Except.noConfusion hout
  | case3 x hx k hfind e hrec ih =>
    intro _ out hout
    rw [sortNodesLoop_some hx hfind, hrec] at hout
    exact Except.noConfusion hout
  | case4 x hx k hfind rest hrec ih =>
    intro hwf out hout
    rw [sortNodesLoop_some hx hfind, hrec] at hout
    injection hout with hout
    subst hout
    have hwf' : GraphWF (removeNode k x) := graphWF_removeNode hwf
    obtain ⟨hiff, hnd, hord⟩ := ih hwf' rest hrec
    have hmemk : (k, []) ∈ x := findEmptyDeps_mem hfind
    have hkk : k ∈ keys x := List.mem_map_of_mem Prod.fst hmemk
    have hdepk : depsOf x k = [] := by
      unfold depsOf
      rw [mem_mapFind hwf.1 hmemk]
      rfl
    have hkeys : keys (removeNode k x) = (keys x).filter (fun y => y ≠ k) :=
      keys_removeNode k x
    refine ⟨?_, ?_, ?_⟩
    · intro j
      by_cases hjk : j = k
      · subst hjk
        simp [hkk]
      · constructor
        · intro hj
          refine List.mem_cons_of_mem _ ((hiff j).mp ?_)
          rw [hkeys]
          simp [List.mem_filter, hj, hjk]
        · intro hj
          rcases List.mem_cons.mp hj with h | h
          · exact absurd h hjk
          · have hmem := (hiff j).mpr h
            rw [hkeys] at hmem
            exact (List.mem_filter.mp hmem).1
    · refine List.nodup_cons.mpr ⟨?_, hnd⟩
      intro hkrest
      have hmem := (hiff k).mpr hkrest
      rw [hkeys] at hmem
      simp [List.mem_filter] at hmem
    · intro a b hab
      by_cases hak : a = k
      · subst hak
        unfold DepEdge at hab
        rw [hdepk] at hab
        simp at hab
      · by_cases hbk : b = k
        · have hax : a ∈ keys x := depEdge_source_mem hab
          have hamem : a ∈ keys (removeNode k x) := by
            rw [hkeys]
            simp [List.mem_filter, hax, hak]
          have harest : a ∈ rest := (hiff a).mp hamem
          obtain ⟨j, hj⟩ := List.mem_iff_getElem?.mp harest
          refine ⟨0, j + 1, Nat.succ_pos j, ?_, by simpa using hj⟩
          rw [hbk]
          simp
        · have hab' : DepEdge (removeNode k x) a b :=
            (depEdge_removeNode_iff x).mpr ⟨hab, hak, hbk⟩
          obtain ⟨i, j, hij, hbi, haj⟩ := hord a b hab'
          exact ⟨i + 1, j + 1, by omega, by simpa using hbi, by simpa using haj⟩

theorem walk_sources {m : GraphNodes} :
    ∀ (le : List Int) (x : Int), le ≠ [] → IsWalk m x le →
      ∀ u ∈ x :: le.dropLast, ∃ v, DepEdge m u v := by
  intro le
  induction le with
  | nil => simp
  | cons b rest ih =>
    intro x _ hw u hu
    obtain ⟨hxb, hrest⟩ := hw
    cases rest with
    | nil =>
      simp only [List.dropLast_single, List.mem_singleton] at hu
      subst hu
      exact ⟨b, hxb⟩
    | cons c rest' =>
      rcases List.mem_cons.mp hu with rfl | hu'
      · exact ⟨b, hxb⟩
      · exact ih b (by simp) hrest u (by simpa using hu')

theorem walk_removeNode {m : GraphNodes} {k : Int} :
    ∀ (le : List Int) (x : Int), x ≠ k → (∀ u ∈ le, u ≠ k) → IsWalk m x le →
      IsWalk (removeNode k m) x le := by
  intro le
  induction le with
  | nil =>
    intro x _ _ _
    trivial
  | cons b rest ih =>
    intro x hxk hle hw
    refine ⟨(depEdge_removeNode_iff m).mpr ⟨hw.1, hxk, hle b (by simp)⟩, ?_⟩
    exact ih b (hle b (by simp)) (fun u hu => hle u (by simp [hu])) hw.2

theorem walk_of_removeNode {m : GraphNodes} {k : Int} :
    ∀ (le : List Int) (x : Int), IsWalk (removeNode k m) x le → IsWalk m x le := by
  intro le
  induction le with
  | nil =>
    intro x _
    trivial
  | cons b rest ih =>
    intro x hw
    exact ⟨((depEdge_removeNode_iff m).mp hw.1).1, ih b hw.2⟩

theorem sortLoop_cycle :
    ∀ m : GraphNodes, (keys m).Nodup → HasCycle m → sortNodesLoop m = .error () := by
  intro m
  induction m using sortNodesLoop.induct with
  | case1 =>
    intro _ hcyc
    obtain ⟨a, l, hw⟩ := hcyc
    cases l with
    | nil => exact absurd hw.1 (by simp [DepEdge, depsOf, mapFind])
    | cons c l' => exact absurd hw.1 (by simp [DepEdge, depsOf, mapFind])
  | case2 x hx hfind =>
    intro _ _
    exact sortNodesLoop_none hx hfind
  | case3 x hx k hfind e hrec ih =>
    intro _ _
    rw [sortNodesLoop_some hx hfind, hrec]
  | case4 x hx k hfind rest hrec ih =>
    intro hnd hcyc
    exfalso
    obtain ⟨a, l, hw⟩ := hcyc
    have hmemk : (k, []) ∈ x := findEmptyDeps_mem hfind
    have hdepk : depsOf x k = [] := by
      unfold depsOf
      rw [mem_mapFind hnd hmemk]
      rfl
    have hsrc : ∀ u ∈ a :: l, ∃ v, DepEdge x u v := by
      have hws := walk_sources (l ++ [a]) a (by simp) hw
      simpa [List.dropLast_concat] using hws
    have hne : ∀ u ∈ a :: l, u ≠ k := by
      intro u hu huk
      obtain ⟨v, hv⟩ := hsrc u hu
      subst huk
      unfold DepEdge at hv
      rw [hdepk] at hv
      simp at hv
    have hw' : IsWalk (removeNode k x) a (l ++ [a]) := by
      refine walk_removeNode (l ++ [a]) a (hne a (by simp)) ?_ hw
      intro u hu
      rcases List.mem_append.mp hu with h | h
      · exact hne u (List.mem_cons_of_mem _ h)
      · simp only [List.mem_singleton] at h
        subst h
        exact hne u (by simp)
    have hnd' : (keys (removeNode k x)).Nodup := by
      rw [keys_removeNode]
      exact hnd.filter _
    have herr := ih hnd' ⟨a, l, hw'⟩
    rw [herr] at hrec
    exact Except.noConfusion hrec

theorem cycle_of_iterate {m : GraphNodes} {f : Int → Int} {x0 : Int} {i j : Nat}
    (hwalk : ∀ (d : Nat) (y : Int), y ∈ keys m →
      IsWalk m y ((List.range d).map (fun t => f^[t + 1] y)))
    (hmem : f^[i] x0 ∈ keys m)
    (hij : i < j) (heq : f^[i] x0 = f^[j] x0) : HasCycle m := by
  obtain ⟨d, hd⟩ : ∃ d, j - i = d + 1 := ⟨j - i - 1, by omega⟩
  have hw := hwalk (d + 1) (f^[i] x0) hmem
  rw [List.range_succ, List.map_append] at hw
  simp only [List.map_cons, List.map_nil] at hw
  have hlast : f^[d + 1] (f^[i] x0) = f^[i] x0 := by
    rw [← Function.iterate_add_apply]
    rw [show d + 1 + i = j from by omega, ← heq]
  rw [hlast] at hw
  exact ⟨f^[i] x0, (List.range d).map (fun t => f^[t + 1] (f^[i] x0)), hw⟩

theorem stuck_cycle {m : GraphNodes} (hne : m ≠ [])
    (hfind : findEmptyDeps m = none) (hc : DepsClosed m) : HasCycle m := by
  have hstuck : ∀ p ∈ m, p.2 ≠ [] := findEmptyDeps_none hfind
  have hstep : ∀ y ∈ keys m,
      DepEdge m y ((depsOf m y).headI) ∧ (depsOf m y).headI ∈ keys m := by
    intro y hy
    rcases hf : mapFind y m with _ | s
    · exact absurd hy ((mapFind_eq_none_iff y m).mp hf)
    · have hsm : (y, s) ∈ m := mapFind_some_mem hf
      have hsne : s ≠ [] := hstuck (y, s) hsm
      have hdy : depsOf m y = s := by
        unfold depsOf
        rw [hf]
        rfl
      cases s with
      | nil => exact absurd rfl hsne
      | cons d s' =>
        rw [hdy]
        exact ⟨by simp [DepEdge, hdy], hc (y, d :: s') hsm d (by simp)⟩
  obtain ⟨p0, m', hm⟩ := List.exists_cons_of_ne_nil hne
  have hx0 : p0.1 ∈ keys m := by
    rw [hm]
    simp [keys]
  set f : Int → Int := fun y => (depsOf m y).headI with hf
  have hseq : ∀ n : Nat, f^[n] p0.1 ∈ keys m := by
    intro n
    induction n with
    | zero => simpa using hx0
    | succ n ihn =>
      rw [Function.iterate_succ_apply']
      exact (hstep _ ihn).2
  have hedge : ∀ n : Nat, DepEdge m (f^[n] p0.1) (f^[n + 1] p0.1) := by
    intro n
    rw [Function.iterate_succ_apply']
    exact (hstep _ (hseq n)).1
  have hwalk : ∀ (d : Nat) (y : Int), y ∈ keys m →
      IsWalk m y ((List.range d).map (fun t => f^[t + 1] y)) := by
    intro d
    induction d with
    | zero => intro y _; trivial
    | succ d ihd =>
      intro y hy
      rw [List.range_succ_eq_map]
      simp only [List.map_cons, List.map_map]
      refine ⟨(hstep y hy).1, ?_⟩
      have hcomp : ((fun t => f^[t + 1] y) ∘ (fun t => t + 1)) =
          (fun t => f^[t + 1] (f y)) := by
        funext t
        simp only [Function.comp_apply]
        rw [show t + 1 + 1 = (t + 1) + 1 from rfl, Function.iterate_succ_apply]
      rw [hcomp]
      exact ihd (f y) (hstep y hy).2
  -- pigeonhole over the finite key list
  have hmaps : ∀ n ∈ Finset.range ((keys m).length + 1),
      f^[n] p0.1 ∈ (keys m).toFinset := by
    intro n _
    simpa using hseq n
  have hcard : (keys m).toFinset.card < (Finset.range ((keys m).length + 1)).card := by
    have := (keys m).toFinset_card_le
    simp only [Finset.card_range]
    omega
  obtain ⟨i, hi, j, hj, hij, heq⟩ :=
    Finset.exists_ne_map_eq_of_card_lt_of_maps_to hcard hmaps
  rcases Nat.lt_or_ge i j with hlt | hge
  · exact cycle_of_iterate hwalk (hseq i) hlt heq
  · have hlt : j < i := Nat.lt_of_le_of_ne hge (fun h => hij h.symm)
    exact cycle_of_iterate hwalk (hseq j) hlt heq.symm

theorem sortLoop_error_cycle :
    ∀ m : GraphNodes, GraphWF m → sortNodesLoop m = .error () → HasCycle m := by
  intro m
  induction m using sortNodesLoop.induct with
  | case1 =>
    intro _ herr
    rw [sortNodesLoop_nil] at herr
    exact Except.noConfusion herr
  | case2 x hx hfind =>
    intro hwf _
    exact stuck_cycle hx hfind hwf.2
  | case3 x hx k hfind e hrec ih =>
    intro hwf _
    have herr : sortNodesLoop (removeNode k x) = .error () := by
      rw [hrec]
    obtain ⟨a, l, hw⟩ := ih (graphWF_removeNode hwf) herr
    exact ⟨a, l, walk_of_removeNode (l ++ [a]) a hw⟩
  | case4 x hx k hfind rest hrec ih =>
    intro hwf herr
    rw [sortNodesLoop_some hx hfind, hrec] at herr
    exact Except.noConfusion herr

/-! ### Graphs built through the public interface

`add_node` / `add_edge` keep the key list strictly sorted and every recorded
dependency target present in the map; these invariants are what the sort
theorems need. -/

/-- One call of the public graph-building interface. -/
inductive GraphOp where
  | addN (n : Int)
  | addE (a b : Int)

/-- A graph built by a sequence of `add_node` / `add_edge` calls starting from
a default-constructed (empty) `minweb::graph`. -/
def buildGraph (ops : List GraphOp) : Graph :=
  ops.foldl
    (fun g op =>
      match op with
      | .addN n => add_node g n
      | .addE a b => add_edge g a b)
    ⟨[]⟩

/-- The representation invariant of the C++ `std::map` state. -/
def GraphInv (m : GraphNodes) : Prop :=
  (keys m).Sorted (· < ·) ∧ DepsClosed m

theorem mem_mapInsert {p : Int × DepSet} {k : Int} {v : DepSet} :
    ∀ m : GraphNodes, p ∈ mapInsert k v m → p = (k, v) ∨ p ∈ m := by
  intro m
  induction m with
  | nil =>
    intro h
    simp [mapInsert] at h
    simp [h]
  | cons q rest ih =>
    obtain ⟨a, s⟩ := q
    intro h
    by_cases h1 : k < a
    · simp [mapInsert, h1] at h
      rcases h with h | h | h
      · exact Or.inl (by simp [h])
      · exact Or.inr (by simp [h])
      · exact Or.inr (by simp [h])
    · by_cases h2 : k = a
      · simp [mapInsert, h1, h2] at h
        rcases h with h | h
        · exact Or.inr (by simp [h])
        · exact Or.inr (by simp [h])
      · simp only [mapInsert, if_neg h1, if_neg h2, List.mem_cons] at h
        rcases h with h | h
        · exact Or.inr (by simp [h])
        · rcases ih h with h | h
          · exact Or.inl h
          · exact Or.inr (by simp [h])

theorem keys_mapInsert_sub {j k : Int} {v : DepSet} {m : GraphNodes}
    (h : j ∈ keys (mapInsert k v m)) : j = k ∨ j ∈ keys m := by
  obtain ⟨p, hp, hpj⟩ := List.mem_map.mp h
  rcases mem_mapInsert m hp with h1 | h1
  · subst h1
    exact Or.inl hpj.symm
  · exact Or.inr (hpj ▸ List.mem_map_of_mem Prod.fst h1)

theorem keys_mapInsert_mono {j k : Int} {v : DepSet} :
    ∀ m : GraphNodes, j ∈ keys m → j ∈ keys (mapInsert k v m) := by
  intro m
  induction m with
  | nil => simp [keys]
  | cons q rest ih =>
    obtain ⟨a, s⟩ := q
    intro h
    simp only [keys, List.map_cons, List.mem_cons] at h
    by_cases h1 : k < a
    · simp only [mapInsert, if_pos h1, keys, List.map_cons, List.mem_cons]
      rcases h with h | h
      · exact Or.inr (Or.inl h)
      · exact Or.inr (Or.inr h)
    · by_cases h2 : k = a
      · simp only [mapInsert, if_neg h1, if_pos h2, keys, List.map_cons, List.mem_cons]
        exact h
      · simp only [mapInsert, if_neg h1, if_neg h2, keys, List.map_cons, List.mem_cons]
        rcases h with h | h
        · exact Or.inl h
        · exact Or.inr (ih h)

theorem self_mem_mapInsert (k : Int) (v : DepSet) :
    ∀ m : GraphNodes, k ∈ keys (mapInsert k v m) := by
  intro m
  induction m with
  | nil => simp [mapInsert, keys]
  | cons q rest ih =>
    obtain ⟨a, s⟩ := q
    by_cases h1 : k < a
    · simp [mapInsert, h1, keys]
    · by_cases h2 : k = a
      · simp [mapInsert, h1, h2, keys]
      · simp only [mapInsert, if_neg h1, if_neg h2, keys, List.map_cons, List.mem_cons]
        exact Or.inr ih

theorem sorted_mapInsert {k : Int} {v : DepSet} :
    ∀ m : GraphNodes, (keys m).Sorted (· < ·) →
      (keys (mapInsert k v m)).Sorted (· < ·) := by
  intro m
  induction m with
  | nil =>
    intro _
    simp [mapInsert, keys]
  | cons q rest ih =>
    obtain ⟨a, s⟩ := q
    intro hs
    rw [keys, List.map_cons, List.sorted_cons] at hs
    obtain ⟨ha, hrest⟩ := hs
    by_cases h1 : k < a
    · simp only [mapInsert, if_pos h1, keys, List.map_cons]
      rw [List.sorted_cons]
      refine ⟨?_, ?_⟩
      · intro b hb
        rcases List.mem_cons.mp hb with h | h
        · exact h ▸ h1
        · exact lt_trans h1 (ha b h)
      · rw [List.sorted_cons]
        exact ⟨ha, hrest⟩
    · by_cases h2 : k = a
      · simp only [mapInsert, if_neg h1, if_pos h2, keys, List.map_cons]
        rw [List.sorted_cons]
        exact ⟨ha, hrest⟩
      · have hak : a < k := by omega
        simp only [mapInsert, if_neg h1, if_neg h2, keys, List.map_cons]
        rw [List.sorted_cons]
        refine ⟨?_, ih hrest⟩
        intro b hb
        rcases keys_mapInsert_sub hb with h | h
        · exact h ▸ hak
        · exact ha b h

theorem keys_mapUpdate (k : Int) (f : DepSet → DepSet) :
    ∀ m : GraphNodes, keys (mapUpdate k f m) = keys m := by
  intro m
  induction m with
  | nil => rfl
  | cons q rest ih =>
    obtain ⟨a, s⟩ := q
    by_cases h : k = a
    · simp [mapUpdate, h, keys]
    · simp [mapUpdate, h, keys]
      exact ih

theorem mem_mapUpdate {p : Int × DepSet} {k : Int} {f : DepSet → DepSet} :
    ∀ m : GraphNodes, p ∈ mapUpdate k f m →
      p ∈ m ∨ ∃ q ∈ m, p = (q.1, f q.2) := by
  intro m
  induction m with
  | nil =>
    intro h
    simp [mapUpdate] at h
  | cons q rest ih =>
    obtain ⟨a, s⟩ := q
    intro h
    by_cases hk : k = a
    · simp only [mapUpdate, if_pos hk, List.mem_cons] at h
      rcases h with h | h
      · exact Or.inr ⟨(a, s), by simp, by simp [h]⟩
      · exact Or.inl (by simp [h])
    · simp only [mapUpdate, if_neg hk, List.mem_cons] at h
      rcases h with h | h
      · exact Or.inl (by simp [h])
      · rcases ih h with h1 | ⟨q, hq, hpq⟩
        · exact Or.inl (by simp [h1])
        · exact Or.inr ⟨q, List.mem_cons_of_mem _ hq, hpq⟩

theorem mem_setInsert {x t : Int} :
    ∀ s : DepSet, x ∈ setInsert t s → x = t ∨ x ∈ s := by
  intro s
  induction s with
  | nil =>
    intro h
    simp [setInsert] at h
    exact Or.inl h
  | cons y rest ih =>
    intro h
    by_cases h1 : t < y
    · simp only [setInsert, if_pos h1, List.mem_cons] at h
      rcases h with h | h | h
      · exact Or.inl h
      · exact Or.inr (by simp [h])
      · exact Or.inr (by simp [h])
    · by_cases h2 : t = y
      · simp only [setInsert, if_neg h1, if_pos h2, List.mem_cons] at h
        rcases h with h | h
        · exact Or.inr (by simp [h])
        · exact Or.inr (by simp [h])
      · simp only [setInsert, if_neg h1, if_neg h2, List.mem_cons] at h
        rcases h with h | h
        · exact Or.inr (by simp [h])
        · rcases ih h with h | h
          · exact Or.inl h
          · exact Or.inr (by simp [h])

theorem graphInv_add_node {g : Graph} (h : GraphInv g.nodes) (n : Int) :
    GraphInv (add_node g n).nodes := by
  obtain ⟨hs, hc⟩ := h
  refine ⟨sorted_mapInsert _ hs, ?_⟩
  intro p hp d hd
  rcases mem_mapInsert _ hp with h1 | h1
  · subst h1
    simp at hd
  · exact keys_mapInsert_mono _ (hc p h1 d hd)

theorem graphInv_add_edge {g : Graph} (h : GraphInv g.nodes) (a b : Int) :
    GraphInv (add_edge g a b).nodes := by
  have h1 : GraphInv (if (mapFind a g.nodes).isSome then g
      else add_node g a).nodes := by
    by_cases hf : (mapFind a g.nodes).isSome
    · simpa [hf] using h
    · simpa [hf] using graphInv_add_node h a
  set g1 : Graph := if (mapFind a g.nodes).isSome then g else add_node g a with hg1
  set g2 : Graph := ⟨mapUpdate a (setInsert b) g1.nodes⟩ with hg2
  have hs2 : (keys g2.nodes).Sorted (· < ·) := by
    rw [hg2]
    show (keys (mapUpdate a (setInsert b) g1.nodes)).Sorted (· < ·)
    rw [keys_mapUpdate]
    exact h1.1
  have hc2 : ∀ p ∈ g2.nodes, ∀ d ∈ p.2, d ∈ keys g2.nodes ∨ d = b := by
    intro p hp d hd
    rw [hg2] at hp
    rcases mem_mapUpdate _ hp with hm | ⟨q, hq, hpq⟩
    · left
      have := h1.2 p hm d hd
      rw [hg2]
      show d ∈ keys (mapUpdate a (setInsert b) g1.nodes)
      rw [keys_mapUpdate]
      exact this
    · subst hpq
      simp only at hd
      rcases mem_setInsert _ hd with h | h
      · right
        exact h
      · left
        have := h1.2 q hq d h
        rw [hg2]
        show d ∈ keys (mapUpdate a (setInsert b) g1.nodes)
        rw [keys_mapUpdate]
        exact this
  show GraphInv (if (mapFind b g2.nodes).isSome then g2 else add_node g2 b).nodes
  by_cases hf : (mapFind b g2.nodes).isSome
  · rw [if_pos hf]
    refine ⟨hs2, ?_⟩
    intro p hp d hd
    rcases hc2 p hp d hd with h | h
    · exact h
    · subst h
      exact (mapFind_isSome_iff d g2.nodes).mp hf
  · rw [if_neg hf]
    refine ⟨sorted_mapInsert _ hs2, ?_⟩
    intro p hp d hd
    rcases mem_mapInsert _ hp with h1m | h1m
    · subst h1m
      simp at hd
    · rcases hc2 p h1m d hd with h2m | h2m
      · exact keys_mapInsert_mono _ h2m
      · subst h2m
        exact self_mem_mapInsert d [] g2.nodes

theorem graphInv_buildGraph (ops : List GraphOp) : GraphInv (buildGraph ops).nodes := by
  suffices hstep : ∀ (l : List GraphOp) (g : Graph), GraphInv g.nodes →
      GraphInv (l.foldl (fun g op =>
        match op with
        | GraphOp.addN n => add_node g n
        | GraphOp.addE a b => add_edge g a b) g).nodes by
    exact hstep ops ⟨[]⟩ ⟨by simp [keys], by intro p hp; simp at hp⟩
  intro l
  induction l with
  | nil =>
    intro g hg
    simpa using hg
  | cons op rest ih =>
    intro g hg
    rcases op with n | ⟨a, b⟩
    · exact ih _ (graphInv_add_node hg n)
    · exact ih _ (graphInv_add_edge hg a b)

theorem graphInv_wf {m : GraphNodes} (h : GraphInv m) : GraphWF m :=
  ⟨List.Pairwise.imp (fun hab => ne_of_lt hab) h.1, h.2⟩

theorem copySortNodes_id (m : GraphNodes) : copySortNodes m = m := by
  simp [copySortNodes]

/-- Claim C8: for every graph built by add_node/add_edge, topological_sort
outputs a sequence containing every node in which each node's dependencies
appear before the node, and it raises a cycle error if and only if the graph
contains a dependency cycle; in particular `addEdge(1,2)` sorts to `[2,1]`,
`addEdge(1,2); addEdge(2,3)` to `[3,2,1]`, adding `addEdge(3,1)` raises the
cycle error, and a single node with no edges sorts to `[thatNode]`. -/
theorem C8_topological_sort_correct :
    (∀ ops : List GraphOp,
      (∀ out, (topological_sort (buildGraph ops)).1 = .ok out →
        ((∀ n, n ∈ keys (buildGraph ops).nodes ↔ n ∈ out)
         ∧ ∀ a b, DepEdge (buildGraph ops).nodes a b →
             ∃ i j : Nat, i < j ∧ out[i]? = some b ∧ out[j]? = some a))
      ∧ ((topological_sort (buildGraph ops)).1 = .error ()
          ↔ HasCycle (buildGraph ops).nodes))
    ∧ (topological_sort (add_edge ⟨[]⟩ 1 2)).1 = .ok [2, 1]
    ∧ (topological_sort (add_edge (add_edge ⟨[]⟩ 1 2) 2 3)).1 = .ok [3, 2, 1]
    ∧ (topological_sort (add_edge (add_edge (add_edge ⟨[]⟩ 1 2) 2 3) 3 1)).1 = .error ()
    ∧ (topological_sort (add_node ⟨[]⟩ 0)).1 = .ok [0] := by
  refine ⟨?_, ?_, ?_, ?_, ?_⟩
  · intro ops
    have hwf : GraphWF (buildGraph ops).nodes := graphInv_wf (graphInv_buildGraph ops)
    constructor
    · intro out hout
      simp only [topological_sort, copySortNodes_id] at hout
      obtain ⟨hiff, _, hord⟩ := sortLoop_ok_spec (buildGraph ops).nodes hwf out hout
      exact ⟨hiff, hord⟩
    · simp only [topological_sort, copySortNodes_id]
      constructor
      · intro herr
        exact sortLoop_error_cycle (buildGraph ops).nodes hwf herr
      · intro hcyc
        exact sortLoop_cycle (buildGraph ops).nodes hwf.1 hcyc
  · simp [topological_sort, copySortNodes, add_edge, add_node, mapFind, mapUpdate,
      mapInsert, setInsert]
    simp [sortNodesLoop, findEmptyDeps, removeNode]
  · simp [topological_sort, copySortNodes, add_edge, add_node, mapFind, mapUpdate,
      mapInsert, setInsert]
    simp [sortNodesLoop, findEmptyDeps, removeNode]
  · simp [topological_sort, copySortNodes, add_edge, add_node, mapFind, mapUpdate,
      mapInsert, setInsert]
    simp [sortNodesLoop, findEmptyDeps, removeNode]
  · simp [topological_sort, copySortNodes, add_edge, add_node, mapFind, mapUpdate,
      mapInsert, setInsert]
    simp [sortNodesLoop, findEmptyDeps, removeNode]

/-- Witness for C8: instantiates the universal part on the one-edge graph
`addEdge(1,2)` and its sorted output `[2,1]`. -/
theorem C8_topological_sort_correct_witness :
    (∀ n : Int, n ∈ keys (buildGraph [GraphOp.addE 1 2]).nodes ↔ n ∈ [(2 : Int), 1])
    ∧ (∀ a b, DepEdge (buildGraph [GraphOp.addE 1 2]).nodes a b →
        ∃ i j : Nat, i < j ∧ [(2 : Int), 1][i]? = some b ∧ [(2 : Int), 1][j]? = some a) :=
  (C8_topological_sort_correct.1 [GraphOp.addE 1 2]).1 [2, 1] (by
    simp [topological_sort, copySortNodes, buildGraph, add_edge, add_node, mapFind,
      mapUpdate, mapInsert, setInsert]
    simp [sortNodesLoop, findEmptyDeps, removeNode])

/-- Claim C9: `topological_sort` never modifies the graph it is called on: it
sorts a deep copy of the node map, the object state after the call equals the
state before it (also when the cycle error is raised), and two successive
calls on the same graph return identical results. -/
theorem C9_topological_sort_frame :
    (∀ g : Graph, (topological_sort g).2 = g)
    ∧ (∀ g : Graph,
        (topological_sort ((topological_sort g).2)).1 = (topological_sort g).1) :=
  ⟨fun _ => rfl, fun _ => rfl⟩

/-! ## Character lexer

Shallow embedding of `minweb::lexer`.  The C++ `std::istream` is modelled as
the list of characters that remain to be read; `EOF` reads are the `none`
results of `read_char`.  Machine `int` line/column counters are `Int`.
-/

/-- The scanning state of `minweb::lexer` (`src/include/minweb/lexer.h`):
input stream, stream name, putback buffer, current position, token start/end
positions and the token buffer. -/
structure LexerState where
  input : List Char
  in_name : String
  putbackbuf : List Char
  curline : Int
  curcol : Int
  start_line : Int
  start_col : Int
  end_line : Int
  end_col : Int
  tokenbuf : List Char
deriving DecidableEq, Repr

/-- The token kinds of `minweb/lexer.h` (MINWEB_TOKEN_*). -/
inductive Token where
  | tokEof
  | tokMacroStart
  | tokMacroEnd
  | tokMacroRef
  | tokPassthrough
  | tokTextSubstitution
  | tokSpecialDirective
deriving DecidableEq, Repr

/-- `lexer::read_char` (`src/lexer/lexer_read_char.cpp`): pull from the
putback buffer first (no position change), else from the stream, where a
consumed newline increments the line and resets the column and any other
consumed character increments the column; at end of input the C++ `get()`
returns `EOF`, which still takes the non-newline branch and increments the
column. -/
def read_char (st : LexerState) : Option Char × LexerState :=
  match st.putbackbuf with
  | c :: rest => (some c, { st with putbackbuf := rest })
  | [] =>
    match st.input with
    | [] => (none, { st with curcol := st.curcol + 1 })
    | c :: rest =>
      if c = '\n' then
        (some c, { st with input := rest, curline := st.curline + 1, curcol := 0 })
      else
        (some c, { st with input := rest, curcol := st.curcol + 1 })

/-- `lexer::accept` (`src/lexer/lexer_accept.cpp`): record the token end
position and append the character to the token buffer. -/
def accept (ch : Char) (st : LexerState) : LexerState :=
  { st with
      end_line := st.curline
      end_col := st.curcol
      tokenbuf := st.tokenbuf ++ [ch] }

/-- `lexer::start` (`src/lexer/lexer_start.cpp`): record the token start
position, clear the token buffer and accept the first character. -/
def start (ch : Char) (st : LexerState) : LexerState :=
  accept ch
    { st with
        start_line := st.curline
        start_col := st.curcol
        tokenbuf := [] }

/-- `lexer::put_back` (`src/lexer/lexer_put_back.cpp`). -/
def put_back (ch : Char) (st : LexerState) : LexerState :=
  { st with putbackbuf := st.putbackbuf ++ [ch] }

/-- `lexer::read_linecol` (`src/lexer/lexer_read_linecol.cpp`): stream name,
token start line/column, then `start_line` again as the end line and
`start_col + tokenbuf.size() - 1` as the end column — the `end_line` /
`end_col` fields recorded by `accept` are not consulted. -/
def read_linecol (st : LexerState) : String × Int × Int × Int × Int :=
  (st.in_name, st.start_line, st.start_col, st.start_line,
   st.start_col + st.tokenbuf.length - 1)

/-- The characters a lexer will deliver, in order: putback queue first, then
the stream. -/
def charsAvail (st : LexerState) : List Char :=
  st.putbackbuf ++ st.input

/-- Termination measure for the scanning loops. -/
def lexMeasure (st : LexerState) : Nat :=
  st.putbackbuf.length + st.input.length

theorem lexMeasure_accept (c : Char) (st : LexerState) :
    lexMeasure (accept c st) = lexMeasure st := rfl

theorem charsAvail_accept (c : Char) (st : LexerState) :
    charsAvail (accept c st) = charsAvail st := rfl

theorem tokenbuf_accept (c : Char) (st : LexerState) :
    (accept c st).tokenbuf = st.tokenbuf ++ [c] := rfl

theorem read_char_some {st : LexerState} {c : Char} {st' : LexerState}
    (h : read_char st = (some c, st')) :
    charsAvail st = c :: charsAvail st' ∧ st'.tokenbuf = st.tokenbuf ∧
    lexMeasure st' < lexMeasure st ∧ st'.in_name = st.in_name ∧
    st'.start_line = st.start_line ∧ st'.start_col = st.start_col := by
  obtain ⟨inp, nm, pb, cl, cc, sl, sc, el, ec, tb⟩ := st
  cases pb with
  | cons p prest =>
    simp only [read_char, Prod.mk.injEq, Option.some.injEq] at h
    obtain ⟨h1, h2⟩ := h
    subst h1
    subst h2
    simp [charsAvail, lexMeasure]
  | nil =>
    cases inp with
    | nil => simp [read_char] at h
    | cons i irest =>
      by_cases hnl : i = '\n'
      · simp only [read_char, if_pos hnl, Prod.mk.injEq, Option.some.injEq] at h
        obtain ⟨h1, h2⟩ := h
        subst h1
        subst h2
        simp [charsAvail, lexMeasure]
      · simp only [read_char, if_neg hnl, Prod.mk.injEq, Option.some.injEq] at h
        obtain ⟨h1, h2⟩ := h
        subst h1
        subst h2
        simp [charsAvail, lexMeasure]

theorem read_char_none {st : LexerState} {st' : LexerState}
    (h : read_char st = (none, st')) :
    charsAvail st = [] ∧ charsAvail st' = [] ∧ st'.tokenbuf = st.tokenbuf ∧
    st'.in_name = st.in_name ∧
    st'.start_line = st.start_line ∧ st'.start_col = st.start_col := by
  obtain ⟨inp, nm, pb, cl, cc, sl, sc, el, ec, tb⟩ := st
  cases pb with
  | cons p prest => simp [read_char] at h
  | nil =>
    cases inp with
    | nil =>
      simp only [read_char, Prod.mk.injEq] at h
      obtain ⟨_, h2⟩ := h
      subst h2
      simp [charsAvail]
    | cons i irest =>
      by_cases hnl : i = '\n'
      · simp [read_char, if_pos hnl] at h
      · simp [read_char, if_neg hnl] at h

/-- The shared failure exit of the four look-ahead routines
(`fail: if (ch != EOF) accept(ch); return MINWEB_TOKEN_PASSTHROUGH;`). -/
def lexFail (och : Option Char) (st : LexerState) : Token × LexerState :=
  match och with
  | some ch => (.tokPassthrough, accept ch st)
  | none => (.tokPassthrough, st)

/-- The `while (ch != EOF && ch != s && ...)` scanning loops of
`src/lexer/lexer_read.cpp`: accept characters until end of input or a stop
character, which is returned unconsumed-into-the-buffer together with the
state. -/
def scanWhileNot (stops : List Char) (st : LexerState) : Option Char × LexerState :=
  match hp : read_char st with
  | (none, st1) => (none, st1)
  | (some c, st1) =>
    if c ∉ stops then scanWhileNot stops (accept c st1)
    else (some c, st1)
termination_by lexMeasure st
decreasing_by
  rw [lexMeasure_accept]
  exact (read_char_some hp).2.2.1

/-- `lexer::maybeReadMacroEnd` (`src/lexer/lexer_read.cpp`): match the
remaining `>@<<` of a `>>@<<` macro-end token. -/
def maybeReadMacroEnd (st0 : LexerState) : Token × LexerState :=
  let p1 := read_char st0
  if p1.1 ≠ some '>' then lexFail p1.1 p1.2 else
  let s1 := accept '>' p1.2
  let p2 := read_char s1
  if p2.1 ≠ some '@' then lexFail p2.1 p2.2 else
  let s2 := accept '@' p2.2
  let p3 := read_char s2
  if p3.1 ≠ some '<' then lexFail p3.1 p3.2 else
  let s3 := accept '<' p3.2
  let p4 := read_char s3
  if p4.1 ≠ some '<' then lexFail p4.1 p4.2 else
  (.tokMacroEnd, accept '<' p4.2)

/-- `lexer::maybeReadMacroStart` (`src/lexer/lexer_read.cpp`): after the
leading `<`, match `<`, at least one name character, the closing `>>`, and
look one character ahead: `=` makes it a MacroStart, end of input a MacroRef,
anything else is put back and it is a MacroRef. -/
def maybeReadMacroStart (st0 : LexerState) : Token × LexerState :=
  let p1 := read_char st0
  if p1.1 ≠ some '<' then lexFail p1.1 p1.2 else
  let s1 := accept '<' p1.2
  let p2 := read_char s1
  match p2.1 with
  | none => lexFail none p2.2
  | some c2 =>
    if c2 = '>' then lexFail (some c2) p2.2 else
    let s2 := accept c2 p2.2
    let p3 := scanWhileNot [ '>', '\n'] s2
    match p3.1 with
    | none => lexFail none p3.2
    | some c3 =>
      if c3 = '\n' then lexFail (some c3) p3.2 else
      let s3 := accept c3 p3.2
      let p4 := read_char s3
      if p4.1 ≠ some '>' then lexFail p4.1 p4.2 else
      let s4 := accept '>' p4.2
      let p5 := read_char s4
      match p5.1 with
      | none => (.tokMacroRef, p5.2)
      | some c5 =>
        if c5 = '=' then (.tokMacroStart, accept '=' p5.2)
        else (.tokMacroRef, put_back c5 p5.2)

/-- `lexer::maybeReadTextSubstitution` (`src/lexer/lexer_read.cpp`): after
the leading `%`, match `[`, at least one key character, `]`, `%`. -/
def maybeReadTextSubstitution (st0 : LexerState) : Token × LexerState :=
  let p1 := read_char st0
  if p1.1 ≠ some '[' then lexFail p1.1 p1.2 else
  let s1 := accept '[' p1.2
  let p2 := read_char s1
  match p2.1 with
  | none => lexFail none p2.2
  | some c2 =>
    if c2 = ']' then lexFail (some c2) p2.2 else
    let s2 := accept c2 p2.2
    let p3 := scanWhileNot [ ']'] s2
    match p3.1 with
    | none => lexFail none p3.2
    | some c3 =>
      let s3 := accept c3 p3.2
      let p4 := read_char s3
      if p4.1 ≠ some '%' then lexFail p4.1 p4.2 else
      (.tokTextSubstitution, accept '%' p4.2)

/-- `lexer::maybeReadSpecialDirective` (`src/lexer/lexer_read.cpp`): after
the leading `#`, match `[`, at least one directive character, `=`, at least
one value character, `]`. -/
def maybeReadSpecialDirective (st0 : LexerState) : Token × LexerState :=
  let p1 := read_char st0
  if p1.1 ≠ some '[' then lexFail p1.1 p1.2 else
  let s1 := accept '[' p1.2
  let p2 := read_char s1
  match p2.1 with
  | none => lexFail none p2.2
  | some c2 =>
    if c2 = '=' then lexFail (some c2) p2.2 else
    let s2 := accept c2 p2.2
    let p3 := scanWhileNot [ '='] s2
    match p3.1 with
    | none => lexFail none p3.2
    | some c3 =>
      let s3 := accept c3 p3.2
      let p4 := read_char s3
      match p4.1 with
      | none => lexFail none p4.2
      | some c4 =>
        if c4 = ']' then lexFail (some c4) p4.2 else
        let s4 := accept c4 p4.2
        let p5 := scanWhileNot [ ']'] s4
        match p5.1 with
        | none => lexFail none p5.2
        | some c5 =>
          (.tokSpecialDirective, accept c5 p5.2)

/-- `lexer::read` (`src/lexer/lexer_read.cpp`): dispatch on the first
character; end of input with no prior character yields Eof with a cleared
token buffer. -/
def lexRead (st : LexerState) : Token × LexerState :=
  match read_char st with
  | (none, st1) => (.tokEof, { st1 with tokenbuf := [] })
  | (some c, st1) =>
    if c = '<' then maybeReadMacroStart (start c st1)
    else if c = '%' then maybeReadTextSubstitution (start c st1)
    else if c = '>' then maybeReadMacroEnd (start c st1)
    else if c = '#' then maybeReadSpecialDirective (start c st1)
    else (.tokPassthrough, start c st1)

/-- The conserved quantity of a token read: the token buffer already filled
followed by the characters still available. -/
def lexInv (st : LexerState) : List Char :=
  st.tokenbuf ++ charsAvail st

theorem lexInv_accept_read {s s1 : LexerState} {c : Char}
    (h : read_char s = (some c, s1)) : lexInv (accept c s1) = lexInv s := by
  obtain ⟨hav, htb, _⟩ := read_char_some h
  simp [lexInv, charsAvail_accept, tokenbuf_accept, htb, hav]

theorem lexInv_none_read {s s1 : LexerState}
    (h : read_char s = (none, s1)) : lexInv s1 = lexInv s := by
  obtain ⟨hav, hav1, htb, _⟩ := read_char_none h
  simp [lexInv, hav, hav1, htb]

theorem tokenbuf_none_read {s s1 : LexerState}
    (h : read_char s = (none, s1)) : s1.tokenbuf = s.tokenbuf :=
  (read_char_none h).2.2.1

theorem tokenbuf_some_read {s s1 : LexerState} {c : Char}
    (h : read_char s = (some c, s1)) : s1.tokenbuf = s.tokenbuf :=
  (read_char_some h).2.1

theorem lexFail_spec {och : Option Char} {sB sA st' : LexerState} {tok : Token}
    (h : lexFail och sA = (tok, st')) (hr : read_char sB = (och, sA)) :
    tok = .tokPassthrough ∧ lexInv st' = lexInv sB ∧
    sB.tokenbuf.length ≤ st'.tokenbuf.length := by
  cases och with
  | none =>
    simp only [lexFail, Prod.mk.injEq] at h
    obtain ⟨h1, h2⟩ := h
    subst h2
    exact ⟨h1.symm, lexInv_none_read hr, by rw [tokenbuf_none_read hr]⟩
  | some c =>
    simp only [lexFail, Prod.mk.injEq] at h
    obtain ⟨h1, h2⟩ := h
    subst h2
    refine ⟨h1.symm, lexInv_accept_read hr, ?_⟩
    rw [tokenbuf_accept, tokenbuf_some_read hr]
    simp

theorem scanWhileNot_none {stops : List Char} {st sB : LexerState}
    (hr : read_char st = (none, sB)) : scanWhileNot stops st = (none, sB) := by
  rw [scanWhileNot.eq_def]
  split
  · rename_i s1 heq
    rw [hr] at heq
    injection heq with h1 h2
    rw [h2]
  · rename_i c s1 heq
    rw [hr] at heq
    injection heq with h1 h2
    exact Option.noConfusion h1

theorem scanWhileNot_cont {stops : List Char} {st sB : LexerState} {c : Char}
    (hr : read_char st = (some c, sB)) (hc : c ∉ stops) :
    scanWhileNot stops st = scanWhileNot stops (accept c sB) := by
  rw [scanWhileNot.eq_def]
  split
  · rename_i s1 heq
    rw [hr] at heq
    injection heq with h1 h2
    exact Option.noConfusion h1
  · rename_i c2 s1 heq
    rw [hr] at heq
    injection heq with h1 h2
    injection h1 with h1
    subst h1
    subst h2
    rw [if_pos hc]

theorem scanWhileNot_stop {stops : List Char} {st sB : LexerState} {c : Char}
    (hr : read_char st = (some c, sB)) (hc : ¬ c ∉ stops) :
    scanWhileNot stops st = (some c, sB) := by
  rw [scanWhileNot.eq_def]
  split
  · rename_i s1 heq
    rw [hr] at heq
    injection heq with h1 h2
    exact Option.noConfusion h1
  · rename_i c2 s1 heq
    rw [hr] at heq
    injection heq with h1 h2
    injection h1 with h1
    subst h1
    subst h2
    rw [if_neg hc]

theorem scanWhileNot_spec (stops : List Char) :
    ∀ st : LexerState, ∀ och st1, scanWhileNot stops st = (och, st1) →
      (och = none → lexInv st1 = lexInv st ∧ st.tokenbuf.length ≤ st1.tokenbuf.length)
      ∧ (∀ c, och = some c →
          lexInv (accept c st1) = lexInv st ∧ st.tokenbuf.length ≤ st1.tokenbuf.length) := by
  intro st
  induction st using scanWhileNot.induct stops with
  | case1 x sB hr =>
    intro och st1 h
    rw [scanWhileNot_none hr] at h
    injection h with h1 h2
    subst h1
    subst h2
    refine ⟨fun _ => ⟨lexInv_none_read hr, by rw [tokenbuf_none_read hr]⟩, ?_⟩
    intro c hc
    exact Option.noConfusion hc
  | case2 x c sB hr hc ih =>
    intro och st1 h
    rw [scanWhileNot_cont hr hc] at h
    have hacc := ih och st1 h
    refine ⟨?_, ?_⟩
    · intro hn
      obtain ⟨h1, h2⟩ := hacc.1 hn
      refine ⟨h1.trans (lexInv_accept_read hr), ?_⟩
      calc x.tokenbuf.length ≤ (accept c sB).tokenbuf.length := by
            rw [tokenbuf_accept, tokenbuf_some_read hr]
            simp
        _ ≤ st1.tokenbuf.length := h2
    · intro c2 hs
      obtain ⟨h1, h2⟩ := hacc.2 c2 hs
      refine ⟨h1.trans (lexInv_accept_read hr), ?_⟩
      calc x.tokenbuf.length ≤ (accept c sB).tokenbuf.length := by
            rw [tokenbuf_accept, tokenbuf_some_read hr]
            simp
        _ ≤ st1.tokenbuf.length := h2
  | case3 x c sB hr hc =>
    intro och st1 h
    rw [scanWhileNot_stop hr hc] at h
    injection h with h1 h2
    subst h1
    subst h2
    refine ⟨fun hn => Option.noConfusion hn, ?_⟩
    intro c2 hs
    injection hs with hs
    subst hs
    exact ⟨lexInv_accept_read hr, by rw [tokenbuf_some_read hr]⟩

theorem lexFail_chain {och : Option Char} {sB sA st' st0 : LexerState} {tok : Token}
    (h : lexFail och sA = (tok, st')) (hr : read_char sB = (och, sA))
    (hinv : lexInv sB = lexInv st0)
    (hlen : st0.tokenbuf.length ≤ sB.tokenbuf.length) :
    lexInv st' = lexInv st0 ∧ st0.tokenbuf.length ≤ st'.tokenbuf.length := by
  obtain ⟨_, h2, h3⟩ := lexFail_spec h hr
  exact ⟨h2.trans hinv, le_trans hlen h3⟩

theorem chain_accept_read {sB sA st0 : LexerState} {c : Char}
    (hr : read_char sB = (some c, sA))
    (hinv : lexInv sB = lexInv st0)
    (hlen : st0.tokenbuf.length ≤ sB.tokenbuf.length) :
    lexInv (accept c sA) = lexInv st0 ∧
    st0.tokenbuf.length ≤ (accept c sA).tokenbuf.length := by
  refine ⟨(lexInv_accept_read hr).trans hinv, ?_⟩
  rw [tokenbuf_accept, tokenbuf_some_read hr]
  rw [List.length_append]
  omega

theorem lexFail_scan_chain {stops : List Char} {sB sA st' st0 : LexerState}
    {c : Char} {tok : Token}
    (h : lexFail (some c) sA = (tok, st'))
    (hs : scanWhileNot stops sB = (some c, sA))
    (hinv : lexInv sB = lexInv st0)
    (hlen : st0.tokenbuf.length ≤ sB.tokenbuf.length) :
    lexInv st' = lexInv st0 ∧ st0.tokenbuf.length ≤ st'.tokenbuf.length := by
  simp only [lexFail, Prod.mk.injEq] at h
  obtain ⟨h1, h2⟩ := h
  subst h2
  obtain ⟨hi, hl⟩ := (scanWhileNot_spec stops sB (some c) sA hs).2 c rfl
  refine ⟨hi.trans hinv, ?_⟩
  rw [tokenbuf_accept, List.length_append]
  omega

theorem lexFail_scan_none_chain {stops : List Char} {sB sA st' st0 : LexerState}
    {tok : Token}
    (h : lexFail none sA = (tok, st'))
    (hs : scanWhileNot stops sB = (none, sA))
    (hinv : lexInv sB = lexInv st0)
    (hlen : st0.tokenbuf.length ≤ sB.tokenbuf.length) :
    lexInv st' = lexInv st0 ∧ st0.tokenbuf.length ≤ st'.tokenbuf.length := by
  simp only [lexFail, Prod.mk.injEq] at h
  obtain ⟨h1, h2⟩ := h
  subst h2
  obtain ⟨hi, hl⟩ := (scanWhileNot_spec stops sB none sA hs).1 rfl
  exact ⟨hi.trans hinv, by omega⟩

theorem chain_scan_some {stops : List Char} {sB sA st0 : LexerState} {c : Char}
    (hs : scanWhileNot stops sB = (some c, sA))
    (hinv : lexInv sB = lexInv st0)
    (hlen : st0.tokenbuf.length ≤ sB.tokenbuf.length) :
    lexInv (accept c sA) = lexInv st0 ∧
    st0.tokenbuf.length ≤ (accept c sA).tokenbuf.length := by
  obtain ⟨hi, hl⟩ := (scanWhileNot_spec stops sB (some c) sA hs).2 c rfl
  refine ⟨hi.trans hinv, ?_⟩
  rw [tokenbuf_accept, List.length_append]
  omega

theorem maybeReadMacroEnd_fail {st0 st' : LexerState} {tok : Token}
    (h : maybeReadMacroEnd st0 = (tok, st')) (hp : tok = .tokPassthrough) :
    lexInv st' = lexInv st0 ∧ st0.tokenbuf.length ≤ st'.tokenbuf.length := by
  unfold maybeReadMacroEnd at h
  rcases hr1 : read_char st0 with ⟨o1, s1⟩
  rw [hr1] at h
  simp only at h
  by_cases h1 : o1 ≠ some '>'
  · rw [if_pos h1] at h
    exact lexFail_chain h hr1 rfl (le_refl _)
  · rw [if_neg h1] at h
    push_neg at h1
    subst h1
    obtain ⟨e1, l1⟩ := chain_accept_read hr1 rfl (le_refl _)
    rcases hr2 : read_char (accept '>' s1) with ⟨o2, s2⟩
    rw [hr2] at h
    simp only at h
    by_cases h2 : o2 ≠ some '@'
    · rw [if_pos h2] at h
      exact lexFail_chain h hr2 e1 l1
    · rw [if_neg h2] at h
      push_neg at h2
      subst h2
      obtain ⟨e2, l2⟩ := chain_accept_read hr2 e1 l1
      rcases hr3 : read_char (accept '@' s2) with ⟨o3, s3⟩
      rw [hr3] at h
      simp only at h
      by_cases h3 : o3 ≠ some '<'
      · rw [if_pos h3] at h
        exact lexFail_chain h hr3 e2 l2
      · rw [if_neg h3] at h
        push_neg at h3
        subst h3
        obtain ⟨e3, l3⟩ := chain_accept_read hr3 e2 l2
        rcases hr4 : read_char (accept '<' s3) with ⟨o4, s4⟩
        rw [hr4] at h
        simp only at h
        by_cases h4 : o4 ≠ some '<'
        · rw [if_pos h4] at h
          exact lexFail_chain h hr4 e3 l3
        · rw [if_neg h4] at h
          injection h with ht _
          rw [← ht] at hp
          simp at hp

theorem maybeReadMacroStart_fail {st0 st' : LexerState} {tok : Token}
    (h : maybeReadMacroStart st0 = (tok, st')) (hp : tok = .tokPassthrough) :
    lexInv st' = lexInv st0 ∧ st0.tokenbuf.length ≤ st'.tokenbuf.length := by
  unfold maybeReadMacroStart at h
  rcases hr1 : read_char st0 with ⟨o1, s1⟩
  rw [hr1] at h
  simp only at h
  by_cases h1 : o1 ≠ some '<'
  · rw [if_pos h1] at h
    exact lexFail_chain h hr1 rfl (le_refl _)
  · rw [if_neg h1] at h
    push_neg at h1
    subst h1
    obtain ⟨e1, l1⟩ := chain_accept_read hr1 rfl (le_refl _)
    rcases hr2 : read_char (accept '<' s1) with ⟨o2, s2⟩
    rw [hr2] at h
    simp only at h
    cases o2 with
    | none => exact lexFail_chain h hr2 e1 l1
    | some c2 =>
      simp only at h
      by_cases h2 : c2 = '>'
      · rw [if_pos h2] at h
        exact lexFail_chain h hr2 e1 l1
      · rw [if_neg h2] at h
        obtain ⟨e2, l2⟩ := chain_accept_read hr2 e1 l1
        rcases hr3 : scanWhileNot [ '>', '\n'] (accept c2 s2) with ⟨o3, s3⟩
        rw [hr3] at h
        simp only at h
        cases o3 with
        | none => exact lexFail_scan_none_chain h hr3 e2 l2
        | some c3 =>
          simp only at h
          by_cases h3 : c3 = '\n'
          · rw [if_pos h3] at h
            exact lexFail_scan_chain h hr3 e2 l2
          · rw [if_neg h3] at h
            obtain ⟨e3, l3⟩ := chain_scan_some hr3 e2 l2
            rcases hr4 : read_char (accept c3 s3) with ⟨o4, s4⟩
            rw [hr4] at h
            simp only at h
            by_cases h4 : o4 ≠ some '>'
            · rw [if_pos h4] at h
              exact lexFail_chain h hr4 e3 l3
            · rw [if_neg h4] at h
              push_neg at h4
              subst h4
              rcases hr5 : read_char (accept '>' s4) with ⟨o5, s5⟩
              rw [hr5] at h
              simp only at h
              cases o5 with
              | none =>
                injection h with ht _
                rw [← ht] at hp
                simp at hp
              | some c5 =>
                simp only at h
                by_cases h5 : c5 = '='
                · rw [if_pos h5] at h
                  injection h with ht _
                  rw [← ht] at hp
                  simp at hp
                · rw [if_neg h5] at h
                  injection h with ht _
                  rw [← ht] at hp
                  simp at hp

theorem maybeReadTextSubstitution_fail {st0 st' : LexerState} {tok : Token}
    (h : maybeReadTextSubstitution st0 = (tok, st')) (hp : tok = .tokPassthrough) :
    lexInv st' = lexInv st0 ∧ st0.tokenbuf.length ≤ st'.tokenbuf.length := by
  unfold maybeReadTextSubstitution at h
  rcases hr1 : read_char st0 with ⟨o1, s1⟩
  rw [hr1] at h
  simp only at h
  by_cases h1 : o1 ≠ some '['
  · rw [if_pos h1] at h
    exact lexFail_chain h hr1 rfl (le_refl _)
  · rw [if_neg h1] at h
    push_neg at h1
    subst h1
    obtain ⟨e1, l1⟩ := chain_accept_read hr1 rfl (le_refl _)
    rcases hr2 : read_char (accept '[' s1) with ⟨o2, s2⟩
    rw [hr2] at h
    simp only at h
    cases o2 with
    | none => exact lexFail_chain h hr2 e1 l1
    | some c2 =>
      simp only at h
      by_cases h2 : c2 = ']'
      · rw [if_pos h2] at h
        exact lexFail_chain h hr2 e1 l1
      · rw [if_neg h2] at h
        obtain ⟨e2, l2⟩ := chain_accept_read hr2 e1 l1
        rcases hr3 : scanWhileNot [ ']'] (accept c2 s2) with ⟨o3, s3⟩
        rw [hr3] at h
        simp only at h
        cases o3 with
        | none => exact lexFail_scan_none_chain h hr3 e2 l2
        | some c3 =>
          simp only at h
          obtain ⟨e3, l3⟩ := chain_scan_some hr3 e2 l2
          rcases hr4 : read_char (accept c3 s3) with ⟨o4, s4⟩
          rw [hr4] at h
          simp only at h
          by_cases h4 : o4 ≠ some '%'
          · rw [if_pos h4] at h
            exact lexFail_chain h hr4 e3 l3
          · rw [if_neg h4] at h
            injection h with ht _
            rw [← ht] at hp
            simp at hp

theorem maybeReadSpecialDirective_fail {st0 st' : LexerState} {tok : Token}
    (h : maybeReadSpecialDirective st0 = (tok, st')) (hp : tok = .tokPassthrough) :
    lexInv st' = lexInv st0 ∧ st0.tokenbuf.length ≤ st'.tokenbuf.length := by
  unfold maybeReadSpecialDirective at h
  rcases hr1 : read_char st0 with ⟨o1, s1⟩
  rw [hr1] at h
  simp only at h
  by_cases h1 : o1 ≠ some '['
  · rw [if_pos h1] at h
    exact lexFail_chain h hr1 rfl (le_refl _)
  · rw [if_neg h1] at h
    push_neg at h1
    subst h1
    obtain ⟨e1, l1⟩ := chain_accept_read hr1 rfl (le_refl _)
    rcases hr2 : read_char (accept '[' s1) with ⟨o2, s2⟩
    rw [hr2] at h
    simp only at h
    cases o2 with
    | none => exact lexFail_chain h hr2 e1 l1
    | some c2 =>
      simp only at h
      by_cases h2 : c2 = '='
      · rw [if_pos h2] at h
        exact lexFail_chain h hr2 e1 l1
      · rw [if_neg h2] at h
        obtain ⟨e2, l2⟩ := chain_accept_read hr2 e1 l1
        rcases hr3 : scanWhileNot [ '='] (accept c2 s2) with ⟨o3, s3⟩
        rw [hr3] at h
        simp only at h
        cases o3 with
        | none => exact lexFail_scan_none_chain h hr3 e2 l2
        | some c3 =>
          simp only at h
          obtain ⟨e3, l3⟩ := chain_scan_some hr3 e2 l2
          rcases hr4 : read_char (accept c3 s3) with ⟨o4, s4⟩
          rw [hr4] at h
          simp only at h
          cases o4 with
          | none => exact lexFail_chain h hr4 e3 l3
          | some c4 =>
            simp only at h
            by_cases h4 : c4 = ']'
            · rw [if_pos h4] at h
              exact lexFail_chain h hr4 e3 l3
            · rw [if_neg h4] at h
              obtain ⟨e4, l4⟩ := chain_accept_read hr4 e3 l3
              rcases hr5 : scanWhileNot [ ']'] (accept c4 s4) with ⟨o5, s5⟩
              rw [hr5] at h
              simp only at h
              cases o5 with
              | none => exact lexFail_scan_none_chain h hr5 e4 l4
              | some c5 =>
                simp only at h
                injection h with ht _
                rw [← ht] at hp
                simp at hp

/-- The freshly constructed lexer of `src/lexer/lexer.cpp`: line 1, column 0,
empty putback buffer and token state. -/
def initLexer (input : List Char) (name : String) : LexerState :=
  ⟨input, name, [], 1, 0, 0, 0, 0, 0, []⟩

/-- Claim C4: whenever `read()` returns a Passthrough token — in particular
whenever a multi-character token attempt (macro start, macro end, text
substitution, special directive) fails partway — it returns that single token
with text exactly the characters consumed (the end-of-input sentinel is not a
character of the model and is thereby excluded): the characters available
before the call are the token text followed by the characters still
available, and the text is never empty, so a failed attempt never degenerates
into several one-character tokens. -/
theorem C4_lexer_failure_policy :
    ∀ st tok st', lexRead st = (tok, st') → tok = .tokPassthrough →
      charsAvail st = st'.tokenbuf ++ charsAvail st' ∧ st'.tokenbuf ≠ [] := by
  intro st tok st' h hp
  unfold lexRead at h
  rcases hr : read_char st with ⟨o, s1⟩
  rw [hr] at h
  cases o with
  | none =>
    injection h with ht _
    rw [← ht] at hp
    simp at hp
  | some c =>
    simp only at h
    have hav : charsAvail st = c :: charsAvail s1 := (read_char_some hr).1
    have hstart_tb : (start c s1).tokenbuf = [c] := rfl
    have hstart_av : charsAvail (start c s1) = charsAvail s1 := rfl
    have hfin : lexInv st' = lexInv (start c s1) →
        (start c s1).tokenbuf.length ≤ st'.tokenbuf.length →
        charsAvail st = st'.tokenbuf ++ charsAvail st' ∧ st'.tokenbuf ≠ [] := by
      intro hi hl
      have h1 : lexInv (start c s1) = charsAvail st := by
        show (start c s1).tokenbuf ++ charsAvail (start c s1) = charsAvail st
        rw [hstart_tb, hstart_av, hav]
        rfl
      refine ⟨?_, ?_⟩
      · rw [← h1, ← hi]
        rfl
      · refine List.length_pos.mp ?_
        rw [hstart_tb] at hl
        simp only [List.length_singleton] at hl
        omega
    by_cases hc1 : c = '<'
    · rw [if_pos hc1] at h
      obtain ⟨hi, hl⟩ := maybeReadMacroStart_fail h hp
      exact hfin hi hl
    · rw [if_neg hc1] at h
      by_cases hc2 : c = '%'
      · rw [if_pos hc2] at h
        obtain ⟨hi, hl⟩ := maybeReadTextSubstitution_fail h hp
        exact hfin hi hl
      · rw [if_neg hc2] at h
        by_cases hc3 : c = '>'
        · rw [if_pos hc3] at h
          obtain ⟨hi, hl⟩ := maybeReadMacroEnd_fail h hp
          exact hfin hi hl
        · rw [if_neg hc3] at h
          by_cases hc4 : c = '#'
          · rw [if_pos hc4] at h
            obtain ⟨hi, hl⟩ := maybeReadSpecialDirective_fail h hp
            exact hfin hi hl
          · rw [if_neg hc4] at h
            injection h with ht hst
            rw [← hst]
            refine ⟨?_, by rw [hstart_tb]; simp⟩
            rw [hav, hstart_tb, hstart_av]
            rfl

/-- Witness for C4: the failed macro-end attempt on `>]tail` consumes two
characters and returns them as one two-character Passthrough token. -/
theorem C4_lexer_failure_policy_witness :
    charsAvail (initLexer (String.toList ">]tail") "doc") =
      (lexRead (initLexer (String.toList ">]tail") "doc")).2.tokenbuf ++
        charsAvail (lexRead (initLexer (String.toList ">]tail") "doc")).2
    ∧ (lexRead (initLexer (String.toList ">]tail") "doc")).2.tokenbuf ≠ [] :=
  C4_lexer_failure_policy _ _ _ rfl rfl

/-- Claim C10: `read_linecol` reports the end line as the token start line
and the end column as start column plus token length minus one, ignoring the
`end_line` / `end_col` recorded by `accept`; a token whose text spans a
newline (here the passthrough produced by the failed attempt on a `>`
followed by a newline) is reported as ending on its start line even though
`accept` recorded the next line. -/
theorem C10_read_linecol_end_position :
    (∀ st : LexerState,
      read_linecol st =
        (st.in_name, st.start_line, st.start_col, st.start_line,
         st.start_col + st.tokenbuf.length - 1))
    ∧ (∀ st tok st', lexRead st = (tok, st') →
        (read_linecol st').2.2.2.1 = st'.start_line
        ∧ (read_linecol st').2.2.2.2 = st'.start_col + st'.tokenbuf.length - 1)
    ∧ ((lexRead (initLexer (String.toList ">\nx") "doc")).2.end_line =
        (lexRead (initLexer (String.toList ">\nx") "doc")).2.start_line + 1
       ∧ (read_linecol (lexRead (initLexer (String.toList ">\nx") "doc")).2).2.2.2.1 =
          (lexRead (initLexer (String.toList ">\nx") "doc")).2.start_line) := by
  refine ⟨fun st => rfl, fun st tok st' _ => ⟨rfl, rfl⟩, ?_, rfl⟩
  decide

/-- Witness for C10: instantiates the quantified part on the newline-spanning
passthrough token read from `>\nx`. -/
theorem C10_read_linecol_end_position_witness :
    (read_linecol (lexRead (initLexer (String.toList ">\nx") "doc")).2).2.2.2.1 =
      (lexRead (initLexer (String.toList ">\nx") "doc")).2.start_line
    ∧ (read_linecol (lexRead (initLexer (String.toList ">\nx") "doc")).2).2.2.2.2 =
      (lexRead (initLexer (String.toList ">\nx") "doc")).2.start_col +
        (lexRead (initLexer (String.toList ">\nx") "doc")).2.tokenbuf.length - 1 :=
  C10_read_linecol_end_position.2.1 (initLexer (String.toList ">\nx") "doc")
    (lexRead (initLexer (String.toList ">\nx") "doc")).1
    (lexRead (initLexer (String.toList ">\nx") "doc")).2 rfl

/-! ## Processor

Shallow embedding of `processor::run` (`src/processor/processor_run.cpp`) at
the token level: the lexer is abstracted to the stream of token records it
would deliver (kind, `get_token_string` text, and the name/start-line/column
from `read_linecol`), and the include stack holds the suspended streams.  The
special-directive callback of the front ends does not feed events back into
the macro state; stream switching performed by a collaborator through
`processor::include_stream` is modelled by the configurations it produces
(see `include_stream` below).  All callbacks are modelled as registered: an
emitted event is an invocation of the corresponding callback. -/

/-- One token as `processor::run` observes it. -/
structure TokRec where
  tok : Token
  text : List Char
  sname : String
  line : Int
  col : Int
deriving DecidableEq, Repr

/-- A callback invocation fired by the processor. -/
inductive PEvent where
  | evMacroBegin (m : MacroTy × List Char)
  | evMacroEnd
  | evMacroRef (name : List Char)
  | evTextSub (t : SubstTy × List Char × List Char)
  | evPassthrough (text : List Char)
  | evDirective (d : DirTy × List Char)
deriving DecidableEq, Repr

/-- The `failout` messages of the four structural throw sites of
`processor::run`. -/
def msgExpectedMacroEnd : String := "Expected a macro end."

def msgMacrosCannotBeNested : String := "Macros cannot be nested."

def msgMacroEndNoBegin : String := "Macro end with no macro begin."

def msgMacroRefOutside : String := "Macro references can only occur in macro bodies."

/-- The errors `processor::run` can produce.  `structuralErr` stands for the
four `processor_error`s built through `failout` with the originating stream
name and token start position; `directiveErr` is the `processor_error`
re-thrown from a special-directive decode failure, carrying only the
decoder's message; `decodeErr` is a `lexer_error` escaping from the macro
begin / macro ref / substitution decoders, which `run` does not catch. -/
inductive RunError where
  | structuralErr (sname : String) (line col : Int) (msg : String)
  | directiveErr (e : LexerErr)
  | decodeErr (e : LexerErr)
deriving DecidableEq, Repr

/-- The `what()` strings of the decoder exceptions. -/
def renderLexerErr : LexerErr → String
  | .malformedMacroStatement t =>
      "Malformed macro statement \x27" ++ String.mk t ++ "\x27"
  | .malformedMacroReference t =>
      "Malformed macro reference \x27" ++ String.mk t ++ "\x27"
  | .malformedTextSubstitution t =>
      "Malformed text substitution \x27" ++ String.mk t ++ "\x27"
  | .malformedSpecialDirective t =>
      "Malformed special directive \x27" ++ String.mk t ++ "\x27"
  | .unsupportedDirectiveType t =>
      "Unsupported directive type \x27" ++ String.mk t ++ "\x27"

/-- The `what()` string of a `processor::run` error: the four structural
sites stream `"Error in " << name << " at " << line << ":" << col << ": "`
followed by the message; the two decoder-borne errors carry the decoder
message unchanged. -/
def renderRunError : RunError → String
  | .structuralErr n l c m =>
      "Error in " ++ n ++ " at " ++ toString l ++ ":" ++ toString c ++ ": " ++ m
  | .directiveErr e => renderLexerErr e
  | .decodeErr e => renderLexerErr e

/-- The `do/while` loop of `processor::run` over the current token stream and
the include stack (`input_stack`).  On Eof inside a macro it fails; on Eof
with a non-empty stack it pops the saved stream and continues — the C++ code
overwrites `tok` with `MINWEB_TOKEN_PASSTHROUGH` and `break`s out of the
`switch`, so no callback runs for the synthetic continuation; on Eof with an
empty stack it terminates. -/
def runLoop : Bool → List TokRec → List (List TokRec) →
    Except RunError (List PEvent)
  | _, [], _ => .ok []
  | inMacro, t :: rest, stk =>
    match t.tok with
    | .tokEof =>
      if inMacro then
        .error (.structuralErr t.sname t.line t.col msgExpectedMacroEnd)
      else
        match stk with
        | top :: stkRest => runLoop false top stkRest
        | [] => .ok []
    | .tokMacroStart =>
      if inMacro then
        .error (.structuralErr t.sname t.line t.col msgMacrosCannotBeNested)
      else
        match macro_type_from_macro_begin t.text with
        | .error e => .error (.decodeErr e)
        | .ok m => (PEvent.evMacroBegin m :: ·) <$> runLoop true rest stk
    | .tokMacroEnd =>
      if ¬ inMacro then
        .error (.structuralErr t.sname t.line t.col msgMacroEndNoBegin)
      else (PEvent.evMacroEnd :: ·) <$> runLoop false rest stk
    | .tokMacroRef =>
      if ¬ inMacro then
        .error (.structuralErr t.sname t.line t.col msgMacroRefOutside)
      else
        match decode_macro_ref t.text with
        | .error e => .error (.decodeErr e)
        | .ok n => (PEvent.evMacroRef n :: ·) <$> runLoop inMacro rest stk
    | .tokTextSubstitution =>
      match substitution_type_from_text_substitution t.text with
      | .error e => .error (.decodeErr e)
      | .ok v => (PEvent.evTextSub v :: ·) <$> runLoop inMacro rest stk
    | .tokPassthrough =>
      (PEvent.evPassthrough t.text :: ·) <$> runLoop inMacro rest stk
    | .tokSpecialDirective =>
      match decode_special_directive t.text with
      | .error e => .error (.directiveErr e)
      | .ok d => (PEvent.evDirective d :: ·) <$> runLoop inMacro rest stk
termination_by _ cur stk =>
  cur.length + (stk.map List.length).sum + stk.length
decreasing_by
  all_goals simp_arith [List.map_cons]

/-- `processor::run` on a fresh processor: not in a macro, empty stack. -/
def processorRun (toks : List TokRec) : Except RunError (List PEvent) :=
  runLoop false toks []

/-- The processor configurations reachable through stream inclusion. -/
structure ProcState where
  cur : List TokRec
  stack : List (List TokRec)
deriving DecidableEq, Repr

/-- `processor::include_stream` (`src/processor/processor_include_stream.cpp`):
capture the current input state, push it, and repoint the lexer at the new
stream. -/
def include_stream (ps : ProcState) (s : List TokRec) : ProcState :=
  ⟨s, ps.cur :: ps.stack⟩

/-- The four unbalanced-token conditions of `processor::run`: end of input
inside a macro body, a macro start inside a macro body, a macro end outside,
a macro reference outside. -/
inductive Unbalanced : Bool → TokRec → Prop where
  | eofInMacro {t : TokRec} (h : t.tok = .tokEof) : Unbalanced true t
  | startInMacro {t : TokRec} (h : t.tok = .tokMacroStart) : Unbalanced true t
  | endOutside {t : TokRec} (h : t.tok = .tokMacroEnd) : Unbalanced false t
  | refOutside {t : TokRec} (h : t.tok = .tokMacroRef) : Unbalanced false t

/-- Error-free processing: `Steps b toks b'` holds when the processor
consumes `toks` from in-macro state `b` to state `b'` without any error and
without reaching end of input. -/
inductive Steps : Bool → List TokRec → Bool → Prop where
  | nil {b : Bool} : Steps b [] b
  | stepStart {t : TokRec} {rest : List TokRec} {b' : Bool}
      (h : t.tok = .tokMacroStart)
      (hd : ∃ m, macro_type_from_macro_begin t.text = .ok m)
      (hs : Steps true rest b') : Steps false (t :: rest) b'
  | stepEnd {t : TokRec} {rest : List TokRec} {b' : Bool}
      (h : t.tok = .tokMacroEnd)
      (hs : Steps false rest b') : Steps true (t :: rest) b'
  | stepRef {t : TokRec} {rest : List TokRec} {b' : Bool}
      (h : t.tok = .tokMacroRef)
      (hd : ∃ n, decode_macro_ref t.text = .ok n)
      (hs : Steps true rest b') : Steps true (t :: rest) b'
  | stepSub {t : TokRec} {rest : List TokRec} {b b' : Bool}
      (h : t.tok = .tokTextSubstitution)
      (hd : ∃ v, substitution_type_from_text_substitution t.text = .ok v)
      (hs : Steps b rest b') : Steps b (t :: rest) b'
  | stepPass {t : TokRec} {rest : List TokRec} {b b' : Bool}
      (h : t.tok = .tokPassthrough)
      (hs : Steps b rest b') : Steps b (t :: rest) b'
  | stepDir {t : TokRec} {rest : List TokRec} {b b' : Bool}
      (h : t.tok = .tokSpecialDirective)
      (hd : ∃ d, decode_special_directive t.text = .ok d)
      (hs : Steps b rest b') : Steps b (t :: rest) b'

/-- The structural message a given unbalanced token triggers. -/
def structuralMsgFor (t : TokRec) : String :=
  match t.tok with
  | .tokEof => msgExpectedMacroEnd
  | .tokMacroStart => msgMacrosCannotBeNested
  | .tokMacroEnd => msgMacroEndNoBegin
  | _ => msgMacroRefOutside

theorem runLoop_structural_fields :
    ∀ (toks : List TokRec) (b : Bool) (n : String) (l c : Int) (m : String),
      runLoop b toks [] = .error (.structuralErr n l c m) →
      ∃ pre t post b', toks = pre ++ t :: post ∧ Steps b pre b' ∧ Unbalanced b' t
        ∧ n = t.sname ∧ l = t.line ∧ c = t.col ∧ m = structuralMsgFor t := by
  intro toks
  induction toks with
  | nil =>
    intro b n l c m h
    simp [runLoop] at h
  | cons t rest ih =>
    intro b n l c m h
    obtain ⟨tt, ttext, tn, tl, tc⟩ := t
    cases tt with
    | tokEof =>
      cases b with
      | true =>
        simp only [runLoop] at h
        rw [if_pos (by decide)] at h
        simp only [Except.error.injEq, RunError.structuralErr.injEq] at h
        obtain ⟨h1, h2, h3, h4⟩ := h
        exact ⟨[], _, rest, true, rfl, Steps.nil, Unbalanced.eofInMacro rfl,
          h1.symm, h2.symm, h3.symm, h4.symm⟩
      | false =>
        simp only [runLoop] at h
        rw [if_neg (by decide)] at h
        simp at h
    | tokMacroStart =>
      cases b with
      | true =>
        simp only [runLoop] at h
        rw [if_pos (by decide)] at h
        simp only [Except.error.injEq, RunError.structuralErr.injEq] at h
        obtain ⟨h1, h2, h3, h4⟩ := h
        exact ⟨[], _, rest, true, rfl, Steps.nil, Unbalanced.startInMacro rfl,
          h1.symm, h2.symm, h3.symm, h4.symm⟩
      | false =>
        simp only [runLoop] at h
        rw [if_neg (by decide)] at h
        rcases hd : macro_type_from_macro_begin ttext with e | mval
        · rw [hd] at h
          simp at h
        · rw [hd] at h
          rcases hrec : runLoop true rest [] with e2 | evs
          · rw [hrec] at h
            simp only [Except.map_error, Except.error.injEq] at h
            subst h
            obtain ⟨pre, t2, post, b2, hsplit, hsteps, hub, h1, h2, h3, h4⟩ :=
              ih true n l c m hrec
            exact ⟨⟨.tokMacroStart, ttext, tn, tl, tc⟩ :: pre, t2, post, b2,
              by rw [hsplit]; rfl,
              Steps.stepStart rfl ⟨mval, hd⟩ hsteps, hub, h1, h2, h3, h4⟩
          · rw [hrec] at h
            simp [Except.map_ok] at h
    | tokMacroEnd =>
      cases b with
      | false =>
        simp only [runLoop] at h
        rw [if_pos (by decide)] at h
        simp only [Except.error.injEq, RunError.structuralErr.injEq] at h
        obtain ⟨h1, h2, h3, h4⟩ := h
        exact ⟨[], _, rest, false, rfl, Steps.nil, Unbalanced.endOutside rfl,
          h1.symm, h2.symm, h3.symm, h4.symm⟩
      | true =>
        simp only [runLoop] at h
        rw [if_neg (by decide)] at h
        rcases hrec : runLoop false rest [] with e2 | evs
        · rw [hrec] at h
          simp only [Except.map_error, Except.error.injEq] at h
          subst h
          obtain ⟨pre, t2, post, b2, hsplit, hsteps, hub, h1, h2, h3, h4⟩ :=
            ih false n l c m hrec
          exact ⟨⟨.tokMacroEnd, ttext, tn, tl, tc⟩ :: pre, t2, post, b2,
            by rw [hsplit]; rfl, Steps.stepEnd rfl hsteps, hub, h1, h2, h3, h4⟩
        · rw [hrec] at h
          simp [Except.map_ok] at h
    | tokMacroRef =>
      cases b with
      | false =>
        simp only [runLoop] at h
        rw [if_pos (by decide)] at h
        simp only [Except.error.injEq, RunError.structuralErr.injEq] at h
        obtain ⟨h1, h2, h3, h4⟩ := h
        exact ⟨[], _, rest, false, rfl, Steps.nil, Unbalanced.refOutside rfl,
          h1.symm, h2.symm, h3.symm, h4.symm⟩
      | true =>
        simp only [runLoop] at h
        rw [if_neg (by decide)] at h
        rcases hd : decode_macro_ref ttext with e | nval
        · rw [hd] at h
          simp at h
        · rw [hd] at h
          rcases hrec : runLoop true rest [] with e2 | evs
          · rw [hrec] at h
            simp only [Except.map_error, Except.error.injEq] at h
            subst h
            obtain ⟨pre, t2, post, b2, hsplit, hsteps, hub, h1, h2, h3, h4⟩ :=
              ih true n l c m hrec
            exact ⟨⟨.tokMacroRef, ttext, tn, tl, tc⟩ :: pre, t2, post, b2,
              by rw [hsplit]; rfl,
              Steps.stepRef rfl ⟨nval, hd⟩ hsteps, hub, h1, h2, h3, h4⟩
          · rw [hrec] at h
            simp [Except.map_ok] at h
    | tokTextSubstitution =>
      simp only [runLoop] at h
      rcases hd : substitution_type_from_text_substitution ttext with e | v
      · rw [hd] at h
        simp at h
      · rw [hd] at h
        rcases hrec : runLoop b rest [] with e2 | evs
        · rw [hrec] at h
          simp only [Except.map_error, Except.error.injEq] at h
          subst h
          obtain ⟨pre, t2, post, b2, hsplit, hsteps, hub, h1, h2, h3, h4⟩ :=
            ih b n l c m hrec
          exact ⟨⟨.tokTextSubstitution, ttext, tn, tl, tc⟩ :: pre, t2, post, b2,
            by rw [hsplit]; rfl,
            Steps.stepSub rfl ⟨v, hd⟩ hsteps, hub, h1, h2, h3, h4⟩
        · rw [hrec] at h
          simp [Except.map_ok] at h
    | tokPassthrough =>
      simp only [runLoop] at h
      rcases hrec : runLoop b rest [] with e2 | evs
      · rw [hrec] at h
        simp only [Except.map_error, Except.error.injEq] at h
        subst h
        obtain ⟨pre, t2, post, b2, hsplit, hsteps, hub, h1, h2, h3, h4⟩ :=
          ih b n l c m hrec
        exact ⟨⟨.tokPassthrough, ttext, tn, tl, tc⟩ :: pre, t2, post, b2,
          by rw [hsplit]; rfl, Steps.stepPass rfl hsteps, hub, h1, h2, h3, h4⟩
      · rw [hrec] at h
        simp [Except.map_ok] at h
    | tokSpecialDirective =>
      simp only [runLoop] at h
      rcases hd : decode_special_directive ttext with e | d
      · rw [hd] at h
        simp at h
      · rw [hd] at h
        rcases hrec : runLoop b rest [] with e2 | evs
        · rw [hrec] at h
          simp only [Except.map_error, Except.error.injEq] at h
          subst h
          obtain ⟨pre, t2, post, b2, hsplit, hsteps, hub, h1, h2, h3, h4⟩ :=
            ih b n l c m hrec
          exact ⟨⟨.tokSpecialDirective, ttext, tn, tl, tc⟩ :: pre, t2, post, b2,
            by rw [hsplit]; rfl,
            Steps.stepDir rfl ⟨d, hd⟩ hsteps, hub, h1, h2, h3, h4⟩
        · rw [hrec] at h
          simp [Except.map_ok] at h

theorem runLoop_unbalanced_error :
    ∀ (pre : List TokRec) (b b' : Bool), Steps b pre b' →
      ∀ (t : TokRec) (post : List TokRec), Unbalanced b' t →
      runLoop b (pre ++ t :: post) [] =
        .error (.structuralErr t.sname t.line t.col (structuralMsgFor t)) := by
  intro pre b b' hs
  induction hs with
  | nil =>
    intro t post hu
    obtain ⟨tt, ttext, tn, tl, tc⟩ := t
    cases hu with
    | eofInMacro h =>
      simp only at h
      subst h
      simp only [List.nil_append, runLoop, structuralMsgFor]
      rw [if_pos (by decide)]
    | startInMacro h =>
      simp only at h
      subst h
      simp only [List.nil_append, runLoop, structuralMsgFor]
      rw [if_pos (by decide)]
    | endOutside h =>
      simp only at h
      subst h
      simp only [List.nil_append, runLoop, structuralMsgFor]
      rw [if_pos (by decide)]
    | refOutside h =>
      simp only at h
      subst h
      simp only [List.nil_append, runLoop, structuralMsgFor]
      rw [if_pos (by decide)]
  | stepStart h hd hsteps ih =>
    intro t post hu
    rename_i t0 rest0 b2
    obtain ⟨mval, hdec⟩ := hd
    obtain ⟨tt0, ttext0, tn0, tl0, tc0⟩ := t0
    simp only at h
    subst h
    simp only [List.cons_append, runLoop]
    rw [if_neg (by decide), hdec]
    rw [ih t post hu]
    simp [Except.map_error]
  | stepEnd h hsteps ih =>
    intro t post hu
    rename_i t0 rest0 b2
    obtain ⟨tt0, ttext0, tn0, tl0, tc0⟩ := t0
    simp only at h
    subst h
    simp only [List.cons_append, runLoop]
    rw [if_neg (by decide)]
    rw [ih t post hu]
    simp [Except.map_error]
  | stepRef h hd hsteps ih =>
    intro t post hu
    rename_i t0 rest0 b2
    obtain ⟨nval, hdec⟩ := hd
    obtain ⟨tt0, ttext0, tn0, tl0, tc0⟩ := t0
    simp only at h
    subst h
    simp only [List.cons_append, runLoop]
    rw [if_neg (by decide), hdec]
    rw [ih t post hu]
    simp [Except.map_error]
  | stepSub h hd hsteps ih =>
    intro t post hu
    rename_i t0 rest0 b1 b2
    obtain ⟨v, hdec⟩ := hd
    obtain ⟨tt0, ttext0, tn0, tl0, tc0⟩ := t0
    simp only at h
    subst h
    simp only [List.cons_append, runLoop]
    rw [hdec]
    rw [ih t post hu]
    simp [Except.map_error]
  | stepPass h hsteps ih =>
    intro t post hu
    rename_i t0 rest0 b1 b2
    obtain ⟨tt0, ttext0, tn0, tl0, tc0⟩ := t0
    simp only at h
    subst h
    simp only [List.cons_append, runLoop]
    rw [ih t post hu]
    simp [Except.map_error]
  | stepDir h hd hsteps ih =>
    intro t post hu
    rename_i t0 rest0 b1 b2
    obtain ⟨d, hdec⟩ := hd
    obtain ⟨tt0, ttext0, tn0, tl0, tc0⟩ := t0
    simp only at h
    subst h
    simp only [List.cons_append, runLoop]
    rw [hdec]
    rw [ih t post hu]
    simp [Except.map_error]

/-- Claim C1: `processor::run` raises a structural error exactly in the four
unbalanced cases — end of input inside a macro body, MacroStart inside a
macro body, MacroEnd outside, MacroRef outside — and every structural error
carries the originating stream name with the offending token's start
line/column and renders as `"Error in <name> at <line>:<col>: <message>"`. -/
theorem C1_processor_structural_errors :
    (∀ (toks : List TokRec) (n : String) (l c : Int) (m : String),
      processorRun toks = .error (.structuralErr n l c m) →
      ∃ pre t post b, toks = pre ++ t :: post ∧ Steps false pre b ∧ Unbalanced b t
        ∧ n = t.sname ∧ l = t.line ∧ c = t.col ∧ m = structuralMsgFor t)
    ∧ (∀ (toks pre : List TokRec) (t : TokRec) (post : List TokRec) (b : Bool),
        toks = pre ++ t :: post → Steps false pre b → Unbalanced b t →
        processorRun toks =
          .error (.structuralErr t.sname t.line t.col (structuralMsgFor t)))
    ∧ (∀ (n : String) (l c : Int) (m : String),
        renderRunError (.structuralErr n l c m) =
          "Error in " ++ n ++ " at " ++ toString l ++ ":" ++ toString c ++ ": " ++ m) := by
  refine ⟨?_, ?_, fun n l c m => rfl⟩
  · intro toks n l c m h
    exact runLoop_structural_fields toks false n l c m h
  · intro toks pre t post b hsplit hsteps hu
    rw [hsplit]
    exact runLoop_unbalanced_error pre false b hsteps t post hu

/-- Witness for C1: a bare `<<foo>>` reference outside any macro body fails
with the structural error formatted from its stream name and position. -/
theorem C1_processor_structural_errors_witness :
    processorRun [⟨Token.tokMacroRef, String.toList "<<foo>>", "doc", 2, 5⟩,
        ⟨Token.tokEof, [], "doc", 2, 12⟩] =
      .error (.structuralErr "doc" 2 5 msgMacroRefOutside)
    ∧ renderRunError (.structuralErr "doc" 2 5 msgMacroRefOutside) =
      "Error in doc at 2:5: Macro references can only occur in macro bodies." := by
  constructor
  · have h := C1_processor_structural_errors.2.1
      [⟨Token.tokMacroRef, String.toList "<<foo>>", "doc", 2, 5⟩,
        ⟨Token.tokEof, [], "doc", 2, 12⟩]
      [] ⟨Token.tokMacroRef, String.toList "<<foo>>", "doc", 2, 5⟩
      [⟨Token.tokEof, [], "doc", 2, 12⟩] false rfl Steps.nil
      (Unbalanced.refOutside rfl)
    simpa [structuralMsgFor] using h
  · have h := C1_processor_structural_errors.2.2 "doc" 2 5 msgMacroRefOutside
    rw [h]
    rfl

/-- Counterexample for C5: an Eof read with a non-empty include stack pops
and continues, but fires no callback at all for the synthetic continuation —
the run of an included stream holding only Eof, with the main stream's Eof
saved on the stack, produces no events, so the passthrough callback is not
invoked with empty text as the claim asserts. -/
theorem C5_pop_counterexample :
    runLoop false
        (include_stream ⟨[⟨Token.tokEof, [], "main", 3, 1⟩], []⟩
          [⟨Token.tokEof, [], "sub", 1, 1⟩]).cur
        (include_stream ⟨[⟨Token.tokEof, [], "main", 3, 1⟩], []⟩
          [⟨Token.tokEof, [], "sub", 1, 1⟩]).stack = .ok []
    ∧ PEvent.evPassthrough [] ∉ ([] : List PEvent) := by
  constructor
  · simp [include_stream, runLoop]
  · simp

/-- Claim C5 as amended: on Eof with a non-empty include stack the processor
pops the top saved stream and continues the run loop with it — the token is
treated as a Passthrough only for the loop-termination test and no callback
is invoked for the synthetic continuation; on Eof with an empty stack (not
inside a macro) the loop terminates normally. -/
theorem C5_eof_pop_amended :
    (∀ (t : TokRec) (rest top : List TokRec) (stk : List (List TokRec)),
        t.tok = .tokEof →
        runLoop false (t :: rest) (top :: stk) = runLoop false top stk)
    ∧ (∀ (t : TokRec) (rest : List TokRec), t.tok = .tokEof →
        runLoop false (t :: rest) [] = .ok []) := by
  constructor
  · intro t rest top stk h
    obtain ⟨tt, ttext, tn, tl, tc⟩ := t
    simp only at h
    subst h
    simp only [runLoop]
    rw [if_neg (by decide)]
  · intro t rest h
    obtain ⟨tt, ttext, tn, tl, tc⟩ := t
    simp only at h
    subst h
    simp only [runLoop]
    rw [if_neg (by decide)]

/-- Witness for C5: popping the saved main stream continues the run with it
and terminating on the final Eof. -/
theorem C5_eof_pop_amended_witness :
    runLoop false [⟨Token.tokEof, [], "sub", 1, 1⟩]
        [[⟨Token.tokPassthrough, String.toList "y", "main", 3, 1⟩,
          ⟨Token.tokEof, [], "main", 3, 2⟩]] =
      runLoop false
        [⟨Token.tokPassthrough, String.toList "y", "main", 3, 1⟩,
          ⟨Token.tokEof, [], "main", 3, 2⟩] []
    ∧ runLoop false [⟨Token.tokEof, [], "main", 3, 2⟩] [] = .ok [] :=
  ⟨C5_eof_pop_amended.1 _ [] _ [] rfl, C5_eof_pop_amended.2 _ [] rfl⟩

/-! ## Macro expansion engine

Shallow embedding of the tangle callbacks of `src/mintangle/main.cpp`: the
macro map `map<string, pair<int, shared_ptr<macro>>>` keyed by name with an
insertion ordinal and an ordered fragment list, where a fragment is either a
literal passthrough text or a deferred reference (the two lambda shapes
pushed by `passthrough_callback` and `macro_ref_callback`).  `current_macro`,
a pointer to the shared fragment list of one entry, is modelled as that
entry's name. -/

/-- One `eval_fn` closure: a literal passthrough text (`Sum.inl`) or a
deferred macro reference (`Sum.inr`). -/
abbrev Frag := Sum (List Char) (List Char)

/-- The `macro_map` of mintangle: name, insertion ordinal, fragments. -/
abbrev MacroMap := List (List Char × Nat × List Frag)

/-- `macros.find(name)`. -/
def mmFind (n : List Char) : MacroMap → Option (Nat × List Frag)
  | [] => none
  | (k, v) :: rest => if k = n then some v else mmFind n rest

/-- `current_macro->push_back(f)`: append a fragment to the entry named `n`. -/
def mmAppend (n : List Char) (f : Frag) : MacroMap → MacroMap
  | [] => []
  | (k, ord, fs) :: rest =>
    if k = n then (k, ord, fs ++ [f]) :: rest
    else (k, ord, fs) :: mmAppend n f rest

/-- The tangle "globals": the macro map and the name of the entry
`current_macro` points into (`none` when the pointer is reset). -/
structure TangleState where
  macros : MacroMap
  currentName : Option (List Char)
deriving DecidableEq, Repr

/-- The tangle callbacks of `src/mintangle/main.cpp`, as one step function
over the events fired by the processor: `passthrough_callback` appends a
literal when inside a macro; `macro_begin_callback` creates the entry with
ordinal `macros.size()+1` on first sight and otherwise re-targets the
existing entry; `macro_end_callback` resets the current pointer;
`macro_ref_callback` appends a deferred reference; text substitutions and
special directives do not touch the macro state (mintangle registers no
substitution callback and its directive callback only performs includes). -/
def tangleStep (ts : TangleState) (ev : PEvent) : TangleState :=
  match ev with
  | .evPassthrough s =>
    match ts.currentName with
    | none => ts
    | some n => { ts with macros := mmAppend n (.inl s) ts.macros }
  | .evMacroBegin m =>
    match mmFind m.2 ts.macros with
    | some _ => { ts with currentName := some m.2 }
    | none =>
      { macros := ts.macros ++ [(m.2, ts.macros.length + 1, [])],
        currentName := some m.2 }
  | .evMacroEnd => { ts with currentName := none }
  | .evMacroRef n =>
    match ts.currentName with
    | none => ts
    | some cn => { ts with macros := mmAppend cn (.inr n) ts.macros }
  | .evTextSub _ => ts
  | .evDirective _ => ts

/-- Run the tangle callbacks over an event sequence from the empty state. -/
def tangleRun (evs : List PEvent) : TangleState :=
  evs.foldl tangleStep ⟨[], none⟩

/-- Lazy recursive macro evaluation (the closures of mintangle, evaluated
against the final map): a literal evaluates to itself; a reference to an
absent name evaluates to the literal `<<name>>`; a reference to a present
name expands its fragments recursively.  The C++ recursion is unbounded
(reference cycles overflow the stack); here `fuel` bounds the reference
depth, `none` standing for a run that exceeds it. -/
def evalFrags (mm : MacroMap) : Nat → List Frag → Option (List Char)
  | _, [] => some []
  | fuel, Sum.inl s :: rest =>
    match evalFrags mm fuel rest with
    | some b => some (s ++ b)
    | none => none
  | fuel, Sum.inr n :: rest =>
    match mmFind n mm with
    | none =>
      match evalFrags mm fuel rest with
      | some b => some (('<' :: '<' :: (n ++ [ '>', '>'])) ++ b)
      | none => none
    | some entry =>
      match fuel with
      | 0 => none
      | fuel2 + 1 =>
        match evalFrags mm fuel2 entry.2 with
        | none => none
        | some a =>
          match evalFrags mm (fuel2 + 1) rest with
          | some b => some (a ++ b)
          | none => none
termination_by fuel l => (fuel, l.length)

theorem mmFind_mmAppend_self (n : List Char) (f : Frag) :
    ∀ mm : MacroMap, mmFind n (mmAppend n f mm) =
      (mmFind n mm).map (fun v => (v.1, v.2 ++ [f])) := by
  intro mm
  induction mm with
  | nil => rfl
  | cons p rest ih =>
    obtain ⟨k, ord, fs⟩ := p
    by_cases hk : k = n
    · simp [mmAppend, mmFind, hk]
    · simp [mmAppend, mmFind, hk, ih]

theorem mmFind_mmAppend_other {k n : List Char} (f : Frag) (hk : k ≠ n) :
    ∀ mm : MacroMap, mmFind k (mmAppend n f mm) = mmFind k mm := by
  have hnk : ¬ (n = k) := fun hh => hk hh.symm
  intro mm
  induction mm with
  | nil => rfl
  | cons p rest ih =>
    obtain ⟨k2, ord, fs⟩ := p
    by_cases h2 : k2 = n
    · subst h2
      simp [mmAppend, mmFind, hnk, ih]
    · by_cases h3 : k2 = k
      · subst h3
        simp [mmAppend, mmFind, h2]
      · simp [mmAppend, mmFind, h2, h3, ih]

theorem mmFind_append (k : List Char) :
    ∀ mm mm2 : MacroMap, mmFind k (mm ++ mm2) =
      (match mmFind k mm with
       | some v => some v
       | none => mmFind k mm2) := by
  intro mm mm2
  induction mm with
  | nil => rfl
  | cons p rest ih =>
    obtain ⟨k2, v⟩ := p
    by_cases h2 : k2 = k
    · simp [mmFind, h2]
    · simp [mmFind, h2, ih]

/-- Events that can occur inside a macro body as the tangle consumer sees
them (everything except macro begin/end, which the processor guarantees are
balanced around bodies). -/
def isBodyEvent : PEvent → Bool
  | .evMacroBegin _ => false
  | .evMacroEnd => false
  | _ => true

/-- The fragments the tangle callbacks append for a body event sequence:
passthroughs become literals, references become deferred references,
substitutions and directives leave the macro state alone. -/
def fragsOfBody : List PEvent → List Frag
  | [] => []
  | PEvent.evPassthrough s :: r => Sum.inl s :: fragsOfBody r
  | PEvent.evMacroRef n :: r => Sum.inr n :: fragsOfBody r
  | _ :: r => fragsOfBody r

theorem body_process :
    ∀ (body : List PEvent), (∀ e ∈ body, isBodyEvent e = true) →
      ∀ (mm : MacroMap) (n : List Char) (ord : Nat) (fs : List Frag),
        mmFind n mm = some (ord, fs) →
        ∃ mm2, body.foldl tangleStep ⟨mm, some n⟩ = ⟨mm2, some n⟩
          ∧ mmFind n mm2 = some (ord, fs ++ fragsOfBody body)
          ∧ ∀ k, k ≠ n → mmFind k mm2 = mmFind k mm := by
  intro body
  induction body with
  | nil =>
    intro _ mm n ord fs hf
    exact ⟨mm, rfl, by simp [hf, fragsOfBody], fun k _ => rfl⟩
  | cons e r ih =>
    intro hb mm n ord fs hf
    have hbr : ∀ x ∈ r, isBodyEvent x = true := fun x hx => hb x (by simp [hx])
    have hbe : isBodyEvent e = true := hb e (by simp)
    cases e with
    | evMacroBegin m => simp [isBodyEvent] at hbe
    | evMacroEnd => simp [isBodyEvent] at hbe
    | evPassthrough s =>
      have hstep : tangleStep ⟨mm, some n⟩ (.evPassthrough s) =
          ⟨mmAppend n (Sum.inl s) mm, some n⟩ := rfl
      have hf2 : mmFind n (mmAppend n (Sum.inl s) mm) =
          some (ord, fs ++ [Sum.inl s]) := by
        rw [mmFind_mmAppend_self, hf]
        rfl
      obtain ⟨mm2, hfold, hfind, hoth⟩ :=
        ih hbr (mmAppend n (Sum.inl s) mm) n ord (fs ++ [Sum.inl s]) hf2
      refine ⟨mm2, ?_, ?_, ?_⟩
      · rw [List.foldl_cons, hstep, hfold]
      · rw [hfind, fragsOfBody]
        simp
      · intro k hk
        rw [hoth k hk, mmFind_mmAppend_other _ hk]
    | evMacroRef n2 =>
      have hstep : tangleStep ⟨mm, some n⟩ (.evMacroRef n2) =
          ⟨mmAppend n (Sum.inr n2) mm, some n⟩ := rfl
      have hf2 : mmFind n (mmAppend n (Sum.inr n2) mm) =
          some (ord, fs ++ [Sum.inr n2]) := by
        rw [mmFind_mmAppend_self, hf]
        rfl
      obtain ⟨mm2, hfold, hfind, hoth⟩ :=
        ih hbr (mmAppend n (Sum.inr n2) mm) n ord (fs ++ [Sum.inr n2]) hf2
      refine ⟨mm2, ?_, ?_, ?_⟩
      · rw [List.foldl_cons, hstep, hfold]
      · rw [hfind, fragsOfBody]
        simp
      · intro k hk
        rw [hoth k hk, mmFind_mmAppend_other _ hk]
    | evTextSub v =>
      obtain ⟨mm2, hfold, hfind, hoth⟩ := ih hbr mm n ord fs hf
      exact ⟨mm2, by rw [List.foldl_cons]; exact hfold, by rw [hfind]; rfl, hoth⟩
    | evDirective d =>
      obtain ⟨mm2, hfold, hfind, hoth⟩ := ih hbr mm n ord fs hf
      exact ⟨mm2, by rw [List.foldl_cons]; exact hfold, by rw [hfind]; rfl, hoth⟩

/-- The fragments currently recorded for `n` (empty when absent). -/
def entryFrags (mm : MacroMap) (n : List Char) : List Frag :=
  match mmFind n mm with
  | some v => v.2
  | none => []

theorem block_process :
    ∀ (mt : MacroTy) (name : List Char) (body : List PEvent),
      (∀ e ∈ body, isBodyEvent e = true) →
      ∀ (mm : MacroMap) (cur0 : Option (List Char)),
        ∃ mm2 ord,
          (PEvent.evMacroBegin (mt, name) :: body ++ [PEvent.evMacroEnd]).foldl
              tangleStep ⟨mm, cur0⟩ = ⟨mm2, none⟩
          ∧ mmFind name mm2 = some (ord, entryFrags mm name ++ fragsOfBody body)
          ∧ ∀ k, k ≠ name → mmFind k mm2 = mmFind k mm := by
  intro mt name body hb mm cur0
  rcases hf : mmFind name mm with _ | v
  · have hstep : tangleStep ⟨mm, cur0⟩ (.evMacroBegin (mt, name)) =
        ⟨mm ++ [(name, mm.length + 1, [])], some name⟩ := by
      simp [tangleStep, hf]
    have hf2 : mmFind name (mm ++ [(name, mm.length + 1, [])]) =
        some (mm.length + 1, []) := by
      rw [mmFind_append, hf]
      simp [mmFind]
    obtain ⟨mm2, hfold, hfind, hoth⟩ :=
      body_process body hb (mm ++ [(name, mm.length + 1, [])]) name
        (mm.length + 1) [] hf2
    refine ⟨mm2, mm.length + 1, ?_, ?_, ?_⟩
    · rw [List.foldl_append, List.foldl_cons, List.foldl_cons, hstep, hfold]
      rfl
    · rw [hfind, entryFrags, hf]
    · intro k hk
      have hnk : ¬ (name = k) := fun hh => hk hh.symm
      rw [hoth k hk, mmFind_append]
      rcases hkk : mmFind k mm with _ | v
      · simp [mmFind, hnk]
      · rfl
  · obtain ⟨ord, fs⟩ := v
    have hstep : tangleStep ⟨mm, cur0⟩ (.evMacroBegin (mt, name)) =
        ⟨mm, some name⟩ := by
      simp [tangleStep, hf]
    obtain ⟨mm2, hfold, hfind, hoth⟩ := body_process body hb mm name ord fs hf
    refine ⟨mm2, ord, ?_, ?_, ?_⟩
    · rw [List.foldl_append, List.foldl_cons, List.foldl_cons, hstep, hfold]
      rfl
    · rw [hfind, entryFrags, hf]
    · exact hoth

theorem mid_preserves :
    ∀ (evs : List PEvent) (name : List Char),
      (∀ mt, PEvent.evMacroBegin (mt, name) ∉ evs) →
      ∀ ts : TangleState, ts.currentName ≠ some name →
        (evs.foldl tangleStep ts).currentName ≠ some name
        ∧ mmFind name (evs.foldl tangleStep ts).macros = mmFind name ts.macros := by
  intro evs
  induction evs with
  | nil =>
    intro name _ ts hc
    exact ⟨hc, rfl⟩
  | cons e r ih =>
    intro name hno ts hc
    have hnor : ∀ mt, PEvent.evMacroBegin (mt, name) ∉ r := by
      intro mt hmem
      exact hno mt (by simp [hmem])
    have step : ∀ ts2 : TangleState, ts2.currentName ≠ some name →
        mmFind name ts2.macros = mmFind name ts.macros →
        (r.foldl tangleStep ts2).currentName ≠ some name
        ∧ mmFind name (r.foldl tangleStep ts2).macros = mmFind name ts.macros := by
      intro ts2 h1 h2
      obtain ⟨ha, hb2⟩ := ih name hnor ts2 h1
      exact ⟨ha, by rw [hb2, h2]⟩
    obtain ⟨mm0, cur0⟩ := ts
    cases e with
    | evPassthrough s =>
      rw [List.foldl_cons]
      cases cur0 with
      | none => exact step _ hc rfl
      | some k =>
        have hk : k ≠ name := fun hh => hc (by rw [hh])
        refine step ⟨mmAppend k (Sum.inl s) mm0, some k⟩ hc ?_
        exact mmFind_mmAppend_other _ (fun hh => hk hh.symm) mm0
    | evMacroRef n2 =>
      rw [List.foldl_cons]
      cases cur0 with
      | none => exact step _ hc rfl
      | some k =>
        have hk : k ≠ name := fun hh => hc (by rw [hh])
        refine step ⟨mmAppend k (Sum.inr n2) mm0, some k⟩ hc ?_
        exact mmFind_mmAppend_other _ (fun hh => hk hh.symm) mm0
    | evMacroBegin m =>
      rw [List.foldl_cons]
      have hm : m.2 ≠ name := by
        intro hh
        exact hno m.1 (by simp [← hh])
      rcases hfm : mmFind m.2 mm0 with _ | v
      · have hstep2 : tangleStep ⟨mm0, cur0⟩ (.evMacroBegin m) =
            ⟨mm0 ++ [(m.2, mm0.length + 1, [])], some m.2⟩ := by
          simp [tangleStep, hfm]
        rw [hstep2]
        refine step ⟨mm0 ++ [(m.2, mm0.length + 1, [])], some m.2⟩
          (by simp [hm]) ?_
        show mmFind name (mm0 ++ [(m.2, mm0.length + 1, [])]) = mmFind name mm0
        have hmn : ¬ (m.2 = name) := hm
        rw [mmFind_append]
        rcases hname : mmFind name mm0 with _ | v2
        · simp [mmFind, hmn]
        · simp
      · have : tangleStep ⟨mm0, cur0⟩ (.evMacroBegin m) = ⟨mm0, some m.2⟩ := by
          simp [tangleStep, hfm]
        rw [this]
        exact step ⟨mm0, some m.2⟩ (by simp [hm]) rfl
    | evMacroEnd =>
      rw [List.foldl_cons]
      exact step ⟨mm0, none⟩ (by simp) rfl
    | evTextSub v =>
      rw [List.foldl_cons]
      exact step ⟨mm0, cur0⟩ hc rfl
    | evDirective d =>
      rw [List.foldl_cons]
      exact step ⟨mm0, cur0⟩ hc rfl

theorem evalFrags_append (mm : MacroMap) (fuel : Nat) :
    ∀ (l1 l2 : List Frag) (a b : List Char),
      evalFrags mm fuel l1 = some a → evalFrags mm fuel l2 = some b →
      evalFrags mm fuel (l1 ++ l2) = some (a ++ b) := by
  intro l1
  induction l1 with
  | nil =>
    intro l2 a b h1 h2
    simp only [evalFrags, Option.some.injEq] at h1
    subst h1
    simpa using h2
  | cons f r ih =>
    intro l2 a b h1 h2
    cases f with
    | inl s =>
      simp only [List.cons_append, evalFrags] at h1 ⊢
      rcases hr : evalFrags mm fuel r with _ | a2
      · rw [hr] at h1
        simp at h1
      · rw [hr] at h1
        simp only [Option.some.injEq] at h1
        subst h1
        rw [ih l2 a2 b hr h2]
        simp
    | inr n =>
      rcases hm : mmFind n mm with _ | entry
      · simp only [List.cons_append, evalFrags] at h1 ⊢
        rw [hm] at h1 ⊢
        rcases hr : evalFrags mm fuel r with _ | a2
        · rw [hr] at h1
          simp at h1
        · rw [hr] at h1
          simp only [Option.some.injEq] at h1
          subst h1
          rw [ih l2 a2 b hr h2]
          simp
      · simp only [List.cons_append, evalFrags] at h1 ⊢
        rw [hm] at h1 ⊢
        simp only at h1 ⊢
        cases fuel with
        | zero => simp at h1
        | succ fuel2 =>
          simp only at h1 ⊢
          rcases hv : evalFrags mm fuel2 entry.2 with _ | av
          · simp_all
          · simp only at h1 ⊢
            rcases hr : evalFrags mm (fuel2 + 1) r with _ | a2
            · simp_all
            · rw [ih l2 a2 b hr h2]
              simp_all
              rw [← h1, List.append_assoc]

/-- Claim C3: a reference fragment whose target is absent from the macro map
evaluates to the literal text `<<name>>` and never raises an error: a macro
consisting of that one fragment evaluates to the literal at every fuel, and
inside any fragment sequence whose other parts evaluate, the unresolved
reference contributes exactly `<<name>>` at its position. -/
theorem C3_unresolved_reference :
    (∀ (mm : MacroMap) (fuel : Nat) (n : List Char), mmFind n mm = none →
      evalFrags mm fuel [Sum.inr n] = some ('<' :: '<' :: (n ++ [ '>', '>'])))
    ∧ (∀ (mm : MacroMap) (fuel : Nat) (n : List Char) (pre post : List Frag)
        (a b : List Char),
        mmFind n mm = none →
        evalFrags mm fuel pre = some a → evalFrags mm fuel post = some b →
        evalFrags mm fuel (pre ++ Sum.inr n :: post) =
          some (a ++ ('<' :: '<' :: (n ++ [ '>', '>'])) ++ b)) := by
  have hone : ∀ (mm : MacroMap) (fuel : Nat) (n : List Char), mmFind n mm = none →
      evalFrags mm fuel [Sum.inr n] = some ('<' :: '<' :: (n ++ [ '>', '>'])) := by
    intro mm fuel n hm
    simp only [evalFrags]
    rw [hm]
    simp [evalFrags]
  refine ⟨hone, ?_⟩
  intro mm fuel n pre post a b hm hpre hpost
  have hcons : evalFrags mm fuel (Sum.inr n :: post) =
      some (('<' :: '<' :: (n ++ [ '>', '>'])) ++ b) := by
    have := evalFrags_append mm fuel [Sum.inr n] post _ b (hone mm fuel n hm) hpost
    simpa using this
  have := evalFrags_append mm fuel pre (Sum.inr n :: post) a _ hpre hcons
  rw [this]
  simp

/-- Witness for C3: in the map with no macros, the sequence literal `x`,
reference to absent macro `a`, literal `y` evaluates to `x<<a>>y`. -/
theorem C3_unresolved_reference_witness :
    evalFrags [] 5 ([Sum.inl [ 'x']] ++ Sum.inr [ 'a'] :: [Sum.inl [ 'y']]) =
      some ([ 'x'] ++ ('<' :: '<' :: ([ 'a'] ++ [ '>', '>'])) ++ [ 'y']) :=
  C3_unresolved_reference.2 [] 5 [ 'a'] [Sum.inl [ 'x']] [Sum.inl [ 'y']]
    [ 'x'] [ 'y'] rfl (by simp [evalFrags]) (by simp [evalFrags])

/-- Claim C2: macro accretion.  In any event sequence consisting of a prefix
and an interlude that never begin a macro of the given name, around two
`<<name>>=` … `>>@<<` blocks, the first block creates the entry, the second
appends to it, the final fragment list of `name` is the concatenation of the
two blocks' fragments in document order, and evaluating that concatenation
yields the concatenation of the evaluations of the two blocks' contents. -/
theorem C2_macro_accretion :
    ∀ (name : List Char) (mt1 mt2 : MacroTy) (b1 b2 pre mid : List PEvent),
      (∀ e ∈ b1, isBodyEvent e = true) →
      (∀ e ∈ b2, isBodyEvent e = true) →
      (∀ mt, PEvent.evMacroBegin (mt, name) ∉ pre) →
      (∀ mt, PEvent.evMacroBegin (mt, name) ∉ mid) →
      ∃ ord M,
        (tangleRun (pre ++ (PEvent.evMacroBegin (mt1, name) :: b1 ++ [PEvent.evMacroEnd])
            ++ mid ++ (PEvent.evMacroBegin (mt2, name) :: b2 ++ [PEvent.evMacroEnd]))).macros
          = M
        ∧ mmFind name M = some (ord, fragsOfBody b1 ++ fragsOfBody b2)
        ∧ ∀ (fuel : Nat) (a1 a2 : List Char),
            evalFrags M fuel (fragsOfBody b1) = some a1 →
            evalFrags M fuel (fragsOfBody b2) = some a2 →
            evalFrags M fuel (fragsOfBody b1 ++ fragsOfBody b2) = some (a1 ++ a2) := by
  intro name mt1 mt2 b1 b2 pre mid hb1 hb2 hnopre hnomid
  unfold tangleRun
  rcases hs1 : List.foldl tangleStep ⟨[], none⟩ pre with ⟨mm1, cur1⟩
  have hpre := mid_preserves pre name hnopre ⟨[], none⟩ (by simp)
  rw [hs1] at hpre
  obtain ⟨hcur1, hfind1⟩ := hpre
  have hfind1n : mmFind name mm1 = none := by
    simpa [mmFind] using hfind1
  obtain ⟨mmB, ordB, hfoldB, hfindB, hothB⟩ :=
    block_process mt1 name b1 hb1 mm1 cur1
  have hfindB2 : mmFind name mmB = some (ordB, fragsOfBody b1) := by
    rw [hfindB, entryFrags, hfind1n]
    rfl
  rcases hs3 : List.foldl tangleStep ⟨mmB, none⟩ mid with ⟨mmC, curC⟩
  have hmid := mid_preserves mid name hnomid ⟨mmB, none⟩ (by simp)
  rw [hs3] at hmid
  obtain ⟨hcurC, hfindC⟩ := hmid
  have hfindC2 : mmFind name mmC = some (ordB, fragsOfBody b1) := by
    rw [hfindC]
    exact hfindB2
  obtain ⟨mmD, ordD, hfoldD, hfindD, hothD⟩ :=
    block_process mt2 name b2 hb2 mmC curC
  have hfindD2 : mmFind name mmD = some (ordD, fragsOfBody b1 ++ fragsOfBody b2) := by
    rw [hfindD, entryFrags, hfindC2]
  refine ⟨ordD, mmD, ?_, hfindD2, ?_⟩
  · simp only [List.foldl_append] at hfoldB hfoldD ⊢
    rw [hs1, hfoldB, hs3, hfoldD]
  · intro fuel a1 a2 h1 h2
    exact evalFrags_append mmD fuel _ _ a1 a2 h1 h2

/-- Witness for C2 at a concrete event stream: macro `m` opened twice with
bodies `x` and then `y` accretes to the fragment list `x` followed by `y`. -/
theorem C2_macro_accretion_witness :
    ∃ ord M,
      (tangleRun ([] ++ (PEvent.evMacroBegin (MacroTy.mtDefault, [ 'm'])
          :: [PEvent.evPassthrough [ 'x']] ++ [PEvent.evMacroEnd])
        ++ [] ++ (PEvent.evMacroBegin (MacroTy.mtFile, [ 'm'])
          :: [PEvent.evPassthrough [ 'y']] ++ [PEvent.evMacroEnd]))).macros = M
      ∧ mmFind [ 'm'] M
          = some (ord, fragsOfBody [PEvent.evPassthrough [ 'x']]
              ++ fragsOfBody [PEvent.evPassthrough [ 'y']])
      ∧ ∀ (fuel : Nat) (a1 a2 : List Char),
          evalFrags M fuel (fragsOfBody [PEvent.evPassthrough [ 'x']]) = some a1 →
          evalFrags M fuel (fragsOfBody [PEvent.evPassthrough [ 'y']]) = some a2 →
          evalFrags M fuel (fragsOfBody [PEvent.evPassthrough [ 'x']]
            ++ fragsOfBody [PEvent.evPassthrough [ 'y']]) = some (a1 ++ a2) :=
  C2_macro_accretion [ 'm'] MacroTy.mtDefault MacroTy.mtFile
    [PEvent.evPassthrough [ 'x']] [PEvent.evPassthrough [ 'y']] [] []
    (by intro e he; simp at he; subst he; rfl)
    (by intro e he; simp at he; subst he; rfl)
    (by intro mt h; simp at h)
    (by intro mt h; simp at h)

/- ### Include resolution (`util/utilities_include_processor_callback.cpp`) -/

/-- The status of a candidate pathname in the modeled filesystem: `stat`
fails (`absent`), `stat` succeeds but the opened `ifstream` is not `good()`
(`unreadable`), or the file opens normally (`readable`). -/
inductive FileStat where
  | absent
  | unreadable
  | readable
deriving DecidableEq, Repr

/-- `string pathname = include_path + "/" + d.second;` -/
def includePathname (p name : List Char) : List Char :=
  p ++ ('/' :: name)

/-- The `processor_error` message thrown when a found include cannot be
opened for reading. -/
def renderOpenError (pathname : List Char) : String :=
  "error: could not open \x27" ++ String.mk pathname ++ "\x27 for reading."

def isReadable : FileStat → Bool
  | .readable => true
  | _ => false

/-- The `for (auto include_path : includes)` loop of the callback: each
candidate that stats successfully is opened (an unopenable one throws) and
handed to `include_stream`; the loop has no `break`, so it keeps scanning
the remaining paths after a successful inclusion.  The result is the ordered
list of pathnames passed to `include_stream`, or the thrown error. -/
def includeLoop (fs : List Char → FileStat) (name : List Char) :
    List (List Char) → Except String (List (List Char))
  | [] => .ok []
  | p :: rest =>
      match fs (includePathname p name) with
      | .absent => includeLoop fs name rest
      | .unreadable => .error (renderOpenError (includePathname p name))
      | .readable =>
          (includeLoop fs name rest).map (includePathname p name :: ·)

/-- The callback returned by `utilities::include_processor_callback`: only
an Include directive triggers the search loop; any other directive falls
through (to `prev`) with no inclusion. -/
def include_processor_callback (fs : List Char → FileStat)
    (includes : List (List Char)) (d : DirTy × List Char) :
    Except String (List (List Char)) :=
  if d.1 = DirTy.dtInclude then includeLoop fs d.2 includes else .ok []

theorem includeLoop_ok (fs : List Char → FileStat) (name : List Char) :
    ∀ includes : List (List Char),
      (∀ p ∈ includes, fs (includePathname p name) ≠ FileStat.unreadable) →
      includeLoop fs name includes =
        Except.ok ((includes.filter
            (fun p => isReadable (fs (includePathname p name)))).map
          (fun p => includePathname p name)) := by
  intro includes
  induction includes with
  | nil => intro _; rfl
  | cons p rest ih =>
    intro h
    have hrest : ∀ q ∈ rest, fs (includePathname q name) ≠ FileStat.unreadable :=
      fun q hq => h q (by simp [hq])
    cases hfp : fs (includePathname p name) with
    | absent =>
      simp only [includeLoop, hfp]
      rw [ih hrest]
      simp [List.filter_cons, isReadable, hfp]
    | unreadable => exact absurd hfp (h p (by simp))
    | readable =>
      simp only [includeLoop, hfp]
      rw [ih hrest]
      simp only [List.filter_cons, isReadable, hfp, if_pos rfl]
      rfl

theorem includeLoop_error (fs : List Char → FileStat) (name p : List Char)
    (post : List (List Char))
    (hp : fs (includePathname p name) = FileStat.unreadable) :
    ∀ pre : List (List Char),
      (∀ q ∈ pre, fs (includePathname q name) ≠ FileStat.unreadable) →
      includeLoop fs name (pre ++ p :: post) =
        Except.error (renderOpenError (includePathname p name)) := by
  intro pre
  induction pre with
  | nil =>
    intro _
    simp only [List.nil_append, includeLoop, hp]
  | cons q rest ih =>
    intro h
    have hrest : ∀ r ∈ rest, fs (includePathname r name) ≠ FileStat.unreadable :=
      fun r hr => h r (by simp [hr])
    cases hfq : fs (includePathname q name) with
    | absent =>
      simp only [List.cons_append, includeLoop, hfq, List.append_eq]
      exact ih hrest
    | unreadable => exact absurd hfq (h q (by simp))
    | readable =>
      simp only [List.cons_append, includeLoop, hfq, List.append_eq]
      rw [ih hrest]
      rfl

/-- Filesystem in which every candidate pathname exists and opens. -/
def fsEverywhere : List Char → FileStat := fun _ => FileStat.readable

/-- Filesystem in which only `b/f` exists. -/
def fsB : List Char → FileStat := fun p =>
  if p = includePathname [ 'b'] [ 'f'] then FileStat.readable else FileStat.absent

/-- Counterexample to C6 as stated: with the file present in both of two
search paths, the callback includes TWO streams — the C++ loop has no
`break` after a successful `stat`, so it is not true that exactly one
stream is included when several paths contain the file. -/
theorem C6_include_counterexample :
    ∃ out,
      include_processor_callback fsEverywhere [[ 'a'], [ 'b']]
        (DirTy.dtInclude, [ 'f']) = Except.ok out
      ∧ out.length = 2 ∧ out ≠ [includePathname [ 'a'] [ 'f']] :=
  ⟨[includePathname [ 'a'] [ 'f'], includePathname [ 'b'] [ 'f']],
    rfl, rfl, by decide⟩

/-- Claim C6 (amended): a non-Include directive causes no inclusion; if no
search path contains the file the callback silently no-ops; if no candidate
is unopenable, the callback includes one stream per path containing the
file, in search-path order (every matching path, not only the first); and
if the first problematic candidate is a found-but-unopenable file, the
callback throws the fatal open error naming that pathname. -/
theorem C6_include_resolution :
    (∀ (fs : List Char → FileStat) (includes : List (List Char))
        (d : DirTy × List Char), d.1 ≠ DirTy.dtInclude →
        include_processor_callback fs includes d = Except.ok [])
    ∧ (∀ (fs : List Char → FileStat) (includes : List (List Char))
        (name : List Char),
        (∀ p ∈ includes, fs (includePathname p name) = FileStat.absent) →
        include_processor_callback fs includes (DirTy.dtInclude, name) =
          Except.ok [])
    ∧ (∀ (fs : List Char → FileStat) (includes : List (List Char))
        (name : List Char),
        (∀ p ∈ includes, fs (includePathname p name) ≠ FileStat.unreadable) →
        include_processor_callback fs includes (DirTy.dtInclude, name) =
          Except.ok ((includes.filter
              (fun p => isReadable (fs (includePathname p name)))).map
            (fun p => includePathname p name)))
    ∧ (∀ (fs : List Char → FileStat) (name p : List Char)
        (pre post : List (List Char)),
        (∀ q ∈ pre, fs (includePathname q name) ≠ FileStat.unreadable) →
        fs (includePathname p name) = FileStat.unreadable →
        include_processor_callback fs (pre ++ p :: post)
            (DirTy.dtInclude, name) =
          Except.error (renderOpenError (includePathname p name))) := by
  refine ⟨?_, ?_, ?_, ?_⟩
  · intro fs includes d hd
    simp only [include_processor_callback, if_neg hd]
  · intro fs includes name h
    simp only [include_processor_callback, if_pos rfl]
    rw [includeLoop_ok fs name includes
      (fun p hp => by rw [h p hp]; intro hc; cases hc)]
    have hfilter : includes.filter
        (fun p => isReadable (fs (includePathname p name))) = [] := by
      rw [List.filter_eq_nil_iff]
      intro p hp
      rw [h p hp]
      intro hc
      cases hc
    rw [hfilter]
    rfl
  · intro fs includes name h
    simp only [include_processor_callback, if_pos rfl]
    exact includeLoop_ok fs name includes h
  · intro fs name p pre post hpre hp
    simp only [include_processor_callback, if_pos rfl]
    exact includeLoop_error fs name p post hp pre hpre

/-- Witness for C6: with the file only under path `b`, searching `[a, b]`
includes exactly the stream `b/f`. -/
theorem C6_include_resolution_witness :
    include_processor_callback fsB [[ 'a'], [ 'b']] (DirTy.dtInclude, [ 'f']) =
      Except.ok [includePathname [ 'b'] [ 'f']] :=
  (C6_include_resolution.2.2.1 fsB [[ 'a'], [ 'b']] [ 'f'] (by decide)).trans
    (by rfl)

end Minweb
